import Mathlib

/-!
Verification of the libosmium multipolygon assembler and relations manager
(`include/osmium/area/assembler.hpp`, `include/osmium/relations/relations_manager.hpp`)
against its natural-language specification.

The embedding translates the C++ sources into executable Lean definitions.
Machine integer coordinates are modelled as `Int` (the 32-bit fixed-point
coordinates never overflow in any arithmetic the modelled code performs on
them other than products inside geometric predicates, which the source
computes in `double` and we model exactly over the integers/rationals).
Types that live in headers not part of the analysed sources
(`segment.hpp`, `problem.hpp`, `detail/proto_ring.hpp`, the relations/member
databases) are modelled from the specification and marked as such.
-/

namespace Osmium

/-- Modelled from the spec: `osmium::Location` (from `osm/location.hpp`, not in
the analysed sources). A location is a pair of exact signed fixed-point integer
coordinates; a location may also be unset ("undefined"), which we model with a
validity flag. Location equality is exact and bit-stable. -/
structure Location where
  valid : Bool
  x : Int
  y : Int
deriving DecidableEq, Repr

/-- Modelled from the spec: `osmium::NodeRef` (from `osm/types.hpp`, not in the
analysed sources): a node reference carries the node id and its resolved
location. -/
structure NodeRef where
  ref : Int
  loc : Location
deriving DecidableEq, Repr

/-- `osmium::NodeRef` equality (`operator==`/`operator!=`) compares the node
ids only; modelled from the spec's "the two node references are equal". -/
def nodeRefEq (a b : NodeRef) : Bool :=
  a.ref == b.ref

/-- A default-constructed `osmium::NodeRef` (ref 0, undefined location), as
used for `last_nr` at the start of the segment-extraction loop. -/
def defaultNodeRef : NodeRef :=
  ⟨0, ⟨false, 0, 0⟩⟩

/-- A way: an id plus an ordered sequence of node references with resolved
locations. -/
structure Way where
  id : Int
  nodes : List NodeRef
deriving DecidableEq, Repr

/-- Modelled from the spec: `NodeRefSegment` (from `area/segment.hpp`, not in
the analysed sources): an unordered pair of node references with locations
attached, canonicalized on construction so that `first` holds the endpoint
with the smaller location (x, then y as tiebreaker). The mutable annotations
(ring back-pointer, cw flag, left neighbor) are kept in parallel state by the
embedding, as the data stored inside the segment never feeds back into the
segment's value. -/
structure NodeRefSegment where
  first : NodeRef
  second : NodeRef
deriving DecidableEq, Repr

/-- Modelled from the spec: `osmium::Location` `operator<` — compare by x,
then by y. -/
def locLt (a b : Location) : Bool :=
  decide (a.x < b.x ∨ (a.x = b.x ∧ a.y < b.y))

/-- Modelled from the spec: the `NodeRefSegment` constructor canonicalizes the
endpoint order so the endpoint with the smaller `(x, y)` location comes
first. -/
def mkSegment (a b : NodeRef) : NodeRefSegment :=
  if locLt a.loc b.loc then ⟨a, b⟩ else ⟨b, a⟩

/-- The sort key of a segment: `(first.x, first.y, second.x, second.y)`. -/
def segKey (s : NodeRefSegment) : Int × Int × Int × Int :=
  (s.first.loc.x, s.first.loc.y, s.second.loc.x, s.second.loc.y)

/-- Lexicographic comparison of segment sort keys. -/
def keyLe4 (p q : Int × Int × Int × Int) : Bool :=
  decide (p.1 < q.1 ∨ (p.1 = q.1 ∧
    (p.2.1 < q.2.1 ∨ (p.2.1 = q.2.1 ∧
      (p.2.2.1 < q.2.2.1 ∨ (p.2.2.1 = q.2.2.1 ∧ p.2.2.2 ≤ q.2.2.2))))))

/-- Modelled from the spec: `NodeRefSegment` `operator<` / the sort order used
by `std::sort` in the assembler: by `(first.x, first.y, second.x, second.y)`. -/
def segLe (a b : NodeRefSegment) : Bool :=
  keyLe4 (segKey a) (segKey b)

/-- Modelled from the spec: `NodeRefSegment` `operator==` — two segments are
equal when they have the same (canonical) start and end point. -/
def segEqB (a b : NodeRefSegment) : Bool :=
  decide (segKey a = segKey b)

/-- The inner loop of segment extraction (assembler.hpp lines 200-206): walk
the way's nodes keeping `last_nr`; push a segment for a consecutive pair
exactly when `last_nr.location() && last_nr != nr`. -/
def extractLoop : NodeRef → List NodeRef → List NodeRefSegment
  | _, [] => []
  | last, nr :: rest =>
      if last.loc.valid && !(nodeRefEq last nr) then
        mkSegment last nr :: extractLoop nr rest
      else
        extractLoop nr rest

/-- Segment extraction over all way members of the relation
(assembler.hpp lines 198-207): for each way, run the extraction loop starting
from a default-constructed `last_nr`. -/
def extract_segments (ways : List Way) : List NodeRefSegment :=
  (ways.map (fun w => extractLoop defaultNodeRef w.nodes)).flatten

/-- The ordering relation used to sort segments, as a proposition. -/
def segLeP (a b : NodeRefSegment) : Prop := segLe a b = true

instance segLeP.decRel : DecidableRel segLeP := fun a b => by
  unfold segLeP
  infer_instance

/-- `std::sort(segments.begin(), segments.end())` (assembler.hpp line 216),
embedded as a sort by the segment sort order (`std::sort` promises some sorted
permutation; the embedding picks insertion sort). -/
def sortSegments (l : List NodeRefSegment) : List NodeRefSegment :=
  l.insertionSort segLeP

/-- One probe of the duplicate-removal loop (assembler.hpp lines 227-236):
`std::adjacent_find` with `operator==` followed by `erase(found, found+2)`.
Returns `none` when no adjacent equal pair exists, otherwise the list with
the first adjacent equal pair (two elements) erased. -/
def adjErase : List NodeRefSegment → Option (List NodeRefSegment)
  | [] => none
  | [_] => none
  | a :: b :: rest =>
      if segKey a = segKey b then
        some rest
      else
        match adjErase (b :: rest) with
        | none => none
        | some l => some (a :: l)

theorem adjErase_length {l l2 : List NodeRefSegment}
    (h : adjErase l = some l2) : l2.length + 2 = l.length := by
  induction l generalizing l2 with
  | nil => simp [adjErase] at h
  | cons a t ih =>
    cases t with
    | nil => simp [adjErase] at h
    | cons b rest =>
      simp only [adjErase] at h
      split at h
      · cases h; simp
      · cases hrec : adjErase (b :: rest) with
        | none => rw [hrec] at h; cases h
        | some l' =>
          rw [hrec] at h
          cases h
          have := ih hrec
          simpa using this

/-- The duplicate-removal loop of the assembler (lines 227-236): repeatedly
find the first adjacent pair of equal segments and erase both, until no such
pair remains. -/
def removeDuplicateSegments (l : List NodeRefSegment) : List NodeRefSegment :=
  match h : adjErase l with
  | none => l
  | some l2 => removeDuplicateSegments l2
termination_by l.length
decreasing_by
  have := adjErase_length h
  omega

/-- Fuel-indexed version of the duplicate-removal loop, used to express
termination of the source's `while (true)` loop: each unit of fuel permits one
loop iteration; `none` means the fuel ran out before the loop finished. -/
def dedupFuel : Nat → List NodeRefSegment → Option (List NodeRefSegment)
  | 0, l =>
      match adjErase l with
      | none => some l
      | some _ => none
  | n + 1, l =>
      match adjErase l with
      | none => some l
      | some l2 => dedupFuel n l2

/-- The full segment pipeline of `Assembler::operator()` before ring building:
extract, sort, remove duplicate pairs. -/
def dedupedSegments (ways : List Way) : List NodeRefSegment :=
  removeDuplicateSegments (sortSegments (extract_segments ways))

/-! ### Basic facts about the segment order -/

theorem keyLe4_trans {p q r : Int × Int × Int × Int}
    (h1 : keyLe4 p q = true) (h2 : keyLe4 q r = true) : keyLe4 p r = true := by
  obtain ⟨p1, p2, p3, p4⟩ := p
  obtain ⟨q1, q2, q3, q4⟩ := q
  obtain ⟨r1, r2, r3, r4⟩ := r
  simp only [keyLe4, decide_eq_true_eq] at h1 h2 ⊢
  omega

theorem keyLe4_total (p q : Int × Int × Int × Int) :
    keyLe4 p q = true ∨ keyLe4 q p = true := by
  obtain ⟨p1, p2, p3, p4⟩ := p
  obtain ⟨q1, q2, q3, q4⟩ := q
  simp only [keyLe4, decide_eq_true_eq]
  omega

theorem keyLe4_antisymm {p q : Int × Int × Int × Int}
    (h1 : keyLe4 p q = true) (h2 : keyLe4 q p = true) : p = q := by
  obtain ⟨p1, p2, p3, p4⟩ := p
  obtain ⟨q1, q2, q3, q4⟩ := q
  simp only [keyLe4, decide_eq_true_eq] at h1 h2
  simp only [Prod.mk.injEq]
  omega

theorem segLe_trans {a b c : NodeRefSegment}
    (h1 : segLe a b = true) (h2 : segLe b c = true) : segLe a c = true :=
  keyLe4_trans h1 h2

instance segLeP.isTotal : IsTotal NodeRefSegment segLeP :=
  ⟨fun a b => by
    unfold segLeP segLe
    exact keyLe4_total (segKey a) (segKey b)⟩

instance segLeP.isTrans : IsTrans NodeRefSegment segLeP :=
  ⟨fun _ _ _ h1 h2 => segLe_trans h1 h2⟩

theorem sortSegments_sorted (l : List NodeRefSegment) :
    (sortSegments l).Pairwise (fun a b => segLe a b = true) :=
  List.sorted_insertionSort segLeP l

theorem sortSegments_perm (l : List NodeRefSegment) :
    (sortSegments l).Perm l :=
  List.perm_insertionSort segLeP l

/-! ### Facts about the duplicate-removal loop -/

/-- The predicate "this segment has canonical key `c`"; the multiplicity of a
canonical segment in a list is `countP` of this predicate. -/
def keyIs (c : Int × Int × Int × Int) (s : NodeRefSegment) : Bool :=
  decide (segKey s = c)

theorem adjErase_countP_mod {l l2 : List NodeRefSegment}
    (h : adjErase l = some l2) (c : Int × Int × Int × Int) :
    l.countP (keyIs c) % 2 = l2.countP (keyIs c) % 2 := by
  induction l generalizing l2 with
  | nil => simp [adjErase] at h
  | cons a t ih =>
    cases t with
    | nil => simp [adjErase] at h
    | cons b rest =>
      simp only [adjErase] at h
      split at h
      · rename_i heq
        cases h
        have hab : keyIs c a = keyIs c b := by
          simp [keyIs, heq]
        simp only [List.countP_cons]
        rcases hb : keyIs c b with _ | _ <;> rw [hab, hb] <;> omega
      · cases hrec : adjErase (b :: rest) with
        | none => rw [hrec] at h; cases h
        | some l' =>
          rw [hrec] at h
          cases h
          have := ih hrec
          simp only [List.countP_cons] at this ⊢
          omega

theorem adjErase_sublist {l l2 : List NodeRefSegment}
    (h : adjErase l = some l2) : l2.Sublist l := by
  induction l generalizing l2 with
  | nil => simp [adjErase] at h
  | cons a t ih =>
    cases t with
    | nil => simp [adjErase] at h
    | cons b rest =>
      simp only [adjErase] at h
      split at h
      · cases h
        exact (List.sublist_cons_self _ _).trans (List.sublist_cons_self _ _)
      · cases hrec : adjErase (b :: rest) with
        | none => rw [hrec] at h; cases h
        | some l' =>
          rw [hrec] at h
          cases h
          exact (ih hrec).cons₂ a

theorem adjErase_none_chain {l : List NodeRefSegment}
    (h : adjErase l = none) : l.Chain' (fun a b => segKey a ≠ segKey b) := by
  induction l with
  | nil => exact List.chain'_nil
  | cons a t ih =>
    cases t with
    | nil => simp
    | cons b rest =>
      simp only [adjErase] at h
      split at h
      · cases h
      · rename_i hne
        cases hrec : adjErase (b :: rest) with
        | none =>
          exact List.Chain'.cons hne (ih hrec)
        | some l' => rw [hrec] at h; cases h

theorem removeDuplicateSegments_countP_mod (l : List NodeRefSegment)
    (c : Int × Int × Int × Int) :
    (removeDuplicateSegments l).countP (keyIs c) % 2 = l.countP (keyIs c) % 2 := by
  rw [removeDuplicateSegments]
  split
  · rfl
  · rename_i l2 h
    have h1 := adjErase_countP_mod h c
    have h2 := removeDuplicateSegments_countP_mod l2 c
    omega
termination_by l.length
decreasing_by
  rename_i hsome
  have := adjErase_length hsome
  omega

theorem removeDuplicateSegments_sublist (l : List NodeRefSegment) :
    (removeDuplicateSegments l).Sublist l := by
  rw [removeDuplicateSegments]
  split
  · exact List.Sublist.refl l
  · rename_i l2 h
    exact (removeDuplicateSegments_sublist l2).trans (adjErase_sublist h)
termination_by l.length
decreasing_by
  rename_i hsome
  have := adjErase_length hsome
  omega

theorem removeDuplicateSegments_fixed (l : List NodeRefSegment) :
    adjErase (removeDuplicateSegments l) = none := by
  rw [removeDuplicateSegments]
  split
  · assumption
  · rename_i l2 h
    exact removeDuplicateSegments_fixed l2
termination_by l.length
decreasing_by
  rename_i hsome
  have := adjErase_length hsome
  omega

/-- In a list sorted by the segment order in which no two adjacent segments
have equal keys, every key occurs at most once. -/
theorem sorted_chain_countP_le_one {l : List NodeRefSegment}
    (hs : l.Pairwise (fun a b => segLe a b = true))
    (hc : l.Chain' (fun a b => segKey a ≠ segKey b))
    (c : Int × Int × Int × Int) : l.countP (keyIs c) ≤ 1 := by
  induction l with
  | nil => simp
  | cons a t ih =>
    have hst := hs.of_cons
    have hct := hc.tail
    rcases ha : keyIs c a with _ | _
    · simp only [List.countP_cons, ha, Bool.false_eq_true, if_false, Nat.add_zero]
      exact ih hst hct
    · simp only [List.countP_cons, ha, if_true]
      have hzero : t.countP (keyIs c) = 0 := by
        rw [List.countP_eq_zero]
        intro x hx
        cases t with
        | nil => cases hx
        | cons b rest =>
          have hab : segKey a ≠ segKey b := (List.chain'_cons.mp hc).1
          have hleab : segLe a b = true :=
            (List.pairwise_cons.mp hs).1 b (List.mem_cons_self b rest)
          simp only [keyIs, decide_eq_true_eq] at ha
          simp only [keyIs, decide_eq_false_iff_not, decide_eq_true_eq]
          rcases List.mem_cons.mp hx with rfl | hx2
          · intro hbc
            exact hab (by rw [hbc, ha])
          · intro hxc
            have hlebx : segLe b x = true :=
              (List.pairwise_cons.mp hst).1 x hx2
            have hba : keyLe4 (segKey b) (segKey a) = true := by
              have hxa : segKey x = segKey a := by rw [hxc, ha]
              rw [segLe, hxa] at hlebx
              exact hlebx
            exact hab (keyLe4_antisymm hleab hba)
      omega

/-! ### Claim C2: which consecutive node pairs produce a segment -/

/-- Characterization of the extraction loop: it produces exactly one segment
for each consecutive node pair whose *first* node has a set location and whose
node ids differ. -/
theorem extractLoop_eq_filterMap (l : List NodeRef) (last : NodeRef) :
    extractLoop last l =
      (((last :: l).zip l).filterMap
        (fun p => if p.1.loc.valid && !(nodeRefEq p.1 p.2)
                  then some (mkSegment p.1 p.2) else none)) := by
  induction l generalizing last with
  | nil => rfl
  | cons nr rest ih =>
    simp only [extractLoop, List.zip_cons_cons, List.filterMap_cons]
    rcases hcond : last.loc.valid && !(nodeRefEq last nr) with _ | _ <;>
      simp [hcond, ih nr]

/-- The specification's description of segment extraction (spec §4.5), written
from the spec's words for comparison with the code: a consecutive pair is
skipped when *either* location is unset or the node references are equal, and
every other pair produces exactly one segment. This definition follows the
spec, not the source. -/
def specSegmentsOfWay (w : Way) : List NodeRefSegment :=
  ((w.nodes.zip w.nodes.tail).filterMap
    (fun p => if p.1.loc.valid && p.2.loc.valid && !(nodeRefEq p.1 p.2)
              then some (mkSegment p.1 p.2) else none))

/-- Counterexample to claim C2 as stated: for the way with nodes
`1` at a set location `(0,0)` and `2` with an *unset* location, the code
produces one segment for the pair (only the first node's location is checked
at assembler.hpp line 202), while the spec's rule ("skip when either location
is unset") predicts zero segments. -/
theorem c2_counterexample :
    (extract_segments [Way.mk 7 [NodeRef.mk 1 (Location.mk true 0 0),
                                 NodeRef.mk 2 (Location.mk false 5 5)]]).length = 1 ∧
    (specSegmentsOfWay (Way.mk 7 [NodeRef.mk 1 (Location.mk true 0 0),
                                  NodeRef.mk 2 (Location.mk false 5 5)])).length = 0 := by
  constructor <;> rfl

/-- Claim C2 (corrected): when extracting segments from the ways of a
multipolygon relation, a consecutive node pair `(n_i, n_(i+1))` produces no
segment whenever the *first* node's location is unset or the two node
references are equal, and every other consecutive pair produces exactly one
`NodeRefSegment` (the second node's location is not examined). -/
theorem c2_segment_extraction (ways : List Way) :
    extract_segments ways =
      (ways.map (fun w =>
        ((w.nodes.zip w.nodes.tail).filterMap
          (fun p => if p.1.loc.valid && !(nodeRefEq p.1 p.2)
                    then some (mkSegment p.1 p.2) else none)))).flatten := by
  have hway : ∀ w : Way, extractLoop defaultNodeRef w.nodes =
      ((w.nodes.zip w.nodes.tail).filterMap
        (fun p => if p.1.loc.valid && !(nodeRefEq p.1 p.2)
                  then some (mkSegment p.1 p.2) else none)) := by
    intro w
    cases hn : w.nodes with
    | nil => rfl
    | cons n0 rest =>
      rw [extractLoop_eq_filterMap]
      simp only [List.zip_cons_cons, List.filterMap_cons, List.tail_cons]
      have hdflt : defaultNodeRef.loc.valid = false := rfl
      rw [hdflt]
      simp
  induction ways with
  | nil => rfl
  | cons w ws ih =>
    simp only [extract_segments, List.map_cons, List.flatten_cons] at ih ⊢
    rw [hway w, ih]

/-! ### Claim C3: duplicate removal leaves multiplicity k mod 2 -/

/-- Claim C3: after sorting the extracted segment list and running the
duplicate-removal loop, every distinct canonical segment that occurred `k`
times in the extracted list survives with multiplicity `k % 2`: even
multiplicity contributes zero segments to the assembly, odd multiplicity
exactly one. -/
theorem c3_dedup_multiplicity (ways : List Way) (c : Int × Int × Int × Int) :
    (removeDuplicateSegments (sortSegments (extract_segments ways))).countP (keyIs c)
      = (extract_segments ways).countP (keyIs c) % 2 := by
  set l := extract_segments ways with hl
  have hperm : (sortSegments l).countP (keyIs c) = l.countP (keyIs c) :=
    (sortSegments_perm l).countP_eq (keyIs c)
  have hmod := removeDuplicateSegments_countP_mod (sortSegments l) c
  have hsorted : (removeDuplicateSegments (sortSegments l)).Pairwise
      (fun a b => segLe a b = true) :=
    (sortSegments_sorted l).sublist (removeDuplicateSegments_sublist _)
  have hchain := adjErase_none_chain (removeDuplicateSegments_fixed (sortSegments l))
  have hle1 := sorted_chain_countP_le_one hsorted hchain c
  omega

/-! ### Claim C4: the duplicate-removal loop terminates -/

theorem dedupFuel_sufficient :
    ∀ (n : Nat) (l : List NodeRefSegment), l.length ≤ n →
      dedupFuel n l = some (removeDuplicateSegments l) := by
  intro n
  induction n with
  | zero =>
    intro l hl
    have : l = [] := List.length_eq_zero.mp (Nat.le_zero.mp hl)
    subst this
    rw [removeDuplicateSegments]
    rfl
  | succ n ih =>
    intro l hl
    rw [removeDuplicateSegments]
    simp only [dedupFuel]
    cases h : adjErase l with
    | none => rfl
    | some l2 =>
      have hlen := adjErase_length h
      exact ih l2 (by omega)

/-- Claim C4: for every finite segment list the duplicate-removal loop
(repeated `adjacent_find` followed by erasing two elements) terminates — a
fuel budget equal to the list length always suffices, and the loop's result is
the fixed point computed by `removeDuplicateSegments`. Duplicates of
multiplicity four or higher simply consume several iterations of the fuel. -/
theorem c4_dedup_terminates (l : List NodeRefSegment) :
    ∃ r, dedupFuel l.length l = some r ∧ r = removeDuplicateSegments l :=
  ⟨removeDuplicateSegments l, dedupFuel_sufficient l.length l (Nat.le_refl _), rfl⟩

/-! ### Intersection detection

`calculate_intersection`, `outside_x_range` and `y_range_overlap` live in
`area/segment.hpp`, which is not part of the analysed sources; they are
modelled from spec §4.6. The scan structure itself (`find_intersections`,
assembler.hpp lines 91-127) is embedded from the source. -/

/-- Rational x-coordinate of a location. -/
def locQx (l : Location) : ℚ := (l.x : ℚ)

/-- Rational y-coordinate of a location. -/
def locQy (l : Location) : ℚ := (l.y : ℚ)

/-- Modelled from the spec: `calculate_intersection` from `area/segment.hpp`
(not in the analysed sources), following spec §4.6: touching at a shared
endpoint is not a crossing (shared-endpoint pairs are rejected first);
collinear/parallel segments (zero denominator) are "overlap", not a crossing;
otherwise the standard parametric line intersection is computed and reported
when both parameters lie in [0,1] — so an endpoint lying on the other
segment's interior does count. The source computes in `double`; the model
computes exactly in ℚ. -/
def calculate_intersection (s1 s2 : NodeRefSegment) : Option (ℚ × ℚ) :=
  let a := s1.first.loc
  let b := s1.second.loc
  let c := s2.first.loc
  let d := s2.second.loc
  if a = c ∨ a = d ∨ b = c ∨ b = d then none
  else
    let denom : Int := (d.y - c.y) * (b.x - a.x) - (d.x - c.x) * (b.y - a.y)
    if denom = 0 then none
    else
      let na : Int := (d.x - c.x) * (a.y - c.y) - (d.y - c.y) * (a.x - c.x)
      let nb : Int := (b.x - a.x) * (a.y - c.y) - (b.y - a.y) * (a.x - c.x)
      if (0 < denom ∧ 0 ≤ na ∧ na ≤ denom ∧ 0 ≤ nb ∧ nb ≤ denom)
         ∨ (denom < 0 ∧ denom ≤ na ∧ na ≤ 0 ∧ denom ≤ nb ∧ nb ≤ 0) then
        let ua : ℚ := (na : ℚ) / (denom : ℚ)
        some (locQx a + ua * (locQx b - locQx a), locQy a + ua * (locQy b - locQy a))
      else none

/-- Modelled from the spec (§4.6): the scan window test — iterate subsequent
segments until `s2.first.x > s1.second.x` (called as
`outside_x_range(s2, s1)` in the source). -/
def outside_x_range (s2 s1 : NodeRefSegment) : Bool :=
  decide (s2.first.loc.x > s1.second.loc.x)

/-- Modelled from the spec (§4.6): skip pairs whose y-ranges are disjoint. -/
def y_range_overlap (s1 s2 : NodeRefSegment) : Bool :=
  let lo1 := min s1.first.loc.y s1.second.loc.y
  let hi1 := max s1.first.loc.y s1.second.loc.y
  let lo2 := min s2.first.loc.y s2.second.loc.y
  let hi2 := max s2.first.loc.y s2.second.loc.y
  decide (¬(lo1 > hi2 ∨ lo2 > hi1))

/-- Modelled from the spec: `osmium::area::Problem` (from `area/problem.hpp`,
not in the analysed sources). The defect kinds are
`intersection(location, segment_a, segment_b)` and
`ring_not_closed(endpoint)`. -/
inductive Problem where
  | intersection (loc : ℚ × ℚ) (sa sb : NodeRefSegment)
  | ringNotClosed (nr : NodeRef)
deriving DecidableEq, Repr

/-- The inner loop of `find_intersections` (assembler.hpp lines 100-123) for a
fixed `s1`: walk the subsequent segments, skipping identical segments,
breaking out of the window on `outside_x_range`, filtering by
`y_range_overlap`, and recording a problem per computed intersection when
`m_remember_problems` is set. The problem list is threaded through, modelling
`m_problems.emplace_back`. -/
def scanFrom (remember : Bool) (s1 : NodeRefSegment) (acc : List Problem) :
    List NodeRefSegment → Bool × List Problem
  | [] => (false, acc)
  | s2 :: rest =>
      if segEqB s1 s2 then scanFrom remember s1 acc rest
      else if outside_x_range s2 s1 then (false, acc)
      else if y_range_overlap s1 s2 then
        match calculate_intersection s1 s2 with
        | some p =>
            let acc2 := if remember then acc ++ [Problem.intersection p s1 s2] else acc
            (true, (scanFrom remember s1 acc2 rest).2)
        | none => scanFrom remember s1 acc rest
      else scanFrom remember s1 acc rest

/-- `Assembler::find_intersections` (assembler.hpp lines 91-127): the outer
loop over `it1`; returns whether any intersection was found, together with the
updated problem list. -/
def findIntersections (remember : Bool) (acc : List Problem) :
    List NodeRefSegment → Bool × List Problem
  | [] => (false, acc)
  | s1 :: rest =>
      let r1 := scanFrom remember s1 acc rest
      let r2 := findIntersections remember r1.2 rest
      (r1.1 || r2.1, r2.2)

/-- The detection outcome for a single ordered pair, at claim level: identical
segments are skipped, otherwise the computed intersection (if any) becomes one
`intersection` problem. -/
def pairCross (s1 s2 : NodeRefSegment) : Option Problem :=
  if segEqB s1 s2 then none
  else
    match calculate_intersection s1 s2 with
    | some p => some (Problem.intersection p s1 s2)
    | none => none

/-- All ordered pairs `(l[i], l[j])` with `i < j`, in scan order. -/
def allPairs : List NodeRefSegment → List (NodeRefSegment × NodeRefSegment)
  | [] => []
  | a :: rest => rest.map (fun b => (a, b)) ++ allPairs rest

/-- The crossings the scan detects, at claim level: one problem per crossing
pair of non-identical segments, in scan order. -/
def crossingProblems (l : List NodeRefSegment) : List Problem :=
  (allPairs l).filterMap (fun pq => pairCross pq.1 pq.2)

/-- Whether any pair of non-identical segments crosses. -/
def anyCrossing (l : List NodeRefSegment) : Bool :=
  (allPairs l).any (fun pq => (pairCross pq.1 pq.2).isSome)

/-! ### Soundness of the scan window and the y-range filter -/

theorem convex_between {t p q : ℚ} (h0 : 0 ≤ t) (h1 : t ≤ 1) :
    min p q ≤ p + t * (q - p) ∧ p + t * (q - p) ≤ max p q := by
  rcases le_total p q with h | h
  · rw [min_eq_left h, max_eq_right h]
    constructor <;> nlinarith
  · rw [min_eq_right h, max_eq_left h]
    constructor <;> nlinarith

theorem param_line_eq (a1 a2 b1 b2 c1 c2 d1 d2 : ℚ)
    (hden : (d2 - c2) * (b1 - a1) - (d1 - c1) * (b2 - a2) ≠ 0) :
    a1 + (((d1 - c1) * (a2 - c2) - (d2 - c2) * (a1 - c1))
            / ((d2 - c2) * (b1 - a1) - (d1 - c1) * (b2 - a2))) * (b1 - a1)
      = c1 + (((b1 - a1) * (a2 - c2) - (b2 - a2) * (a1 - c1))
            / ((d2 - c2) * (b1 - a1) - (d1 - c1) * (b2 - a2))) * (d1 - c1) := by
  field_simp
  ring

theorem param_line_eq_y (a1 a2 b1 b2 c1 c2 d1 d2 : ℚ)
    (hden : (d2 - c2) * (b1 - a1) - (d1 - c1) * (b2 - a2) ≠ 0) :
    a2 + (((d1 - c1) * (a2 - c2) - (d2 - c2) * (a1 - c1))
            / ((d2 - c2) * (b1 - a1) - (d1 - c1) * (b2 - a2))) * (b2 - a2)
      = c2 + (((b1 - a1) * (a2 - c2) - (b2 - a2) * (a1 - c1))
            / ((d2 - c2) * (b1 - a1) - (d1 - c1) * (b2 - a2))) * (d2 - c2) := by
  field_simp
  ring

theorem div_unit_of_int (na denom : Int)
    (h : (0 < denom ∧ 0 ≤ na ∧ na ≤ denom) ∨ (denom < 0 ∧ denom ≤ na ∧ na ≤ 0)) :
    0 ≤ (na : ℚ) / (denom : ℚ) ∧ (na : ℚ) / (denom : ℚ) ≤ 1 := by
  rcases h with ⟨h1, h2, h3⟩ | ⟨h1, h2, h3⟩
  · have hd : (0 : ℚ) < (denom : ℚ) := by exact_mod_cast h1
    have hn : (0 : ℚ) ≤ (na : ℚ) := by exact_mod_cast h2
    have hnd : (na : ℚ) ≤ (denom : ℚ) := by exact_mod_cast h3
    exact ⟨div_nonneg hn hd.le, (div_le_one hd).mpr hnd⟩
  · have hd : ((denom : ℚ)) < 0 := by exact_mod_cast h1
    have hdn : ((denom : ℚ)) ≤ (na : ℚ) := by exact_mod_cast h2
    have hn : ((na : ℚ)) ≤ 0 := by exact_mod_cast h3
    have hneg : (na : ℚ) / (denom : ℚ) = (-(na : ℚ)) / (-(denom : ℚ)) :=
      (neg_div_neg_eq _ _).symm
    have hd2 : (0 : ℚ) < -(denom : ℚ) := by linarith
    constructor
    · rw [hneg]
      exact div_nonneg (by linarith) hd2.le
    · rw [hneg, div_le_one hd2]
      linarith

theorem intersect_bounds_q (A1 A2 B1 B2 C1 C2 D1 D2 N NB D : ℚ) (p : ℚ × ℚ)
    (hD : D = (D2 - C2) * (B1 - A1) - (D1 - C1) * (B2 - A2))
    (hN : N = (D1 - C1) * (A2 - C2) - (D2 - C2) * (A1 - C1))
    (hNB : NB = (B1 - A1) * (A2 - C2) - (B2 - A2) * (A1 - C1))
    (hDne : D ≠ 0)
    (hua : 0 ≤ N / D ∧ N / D ≤ 1)
    (hub : 0 ≤ NB / D ∧ NB / D ≤ 1)
    (hp : p = (A1 + N / D * (B1 - A1), A2 + N / D * (B2 - A2))) :
    (min A1 B1 ≤ p.1 ∧ p.1 ≤ max A1 B1) ∧
    (min A2 B2 ≤ p.2 ∧ p.2 ≤ max A2 B2) ∧
    (min C1 D1 ≤ p.1 ∧ p.1 ≤ max C1 D1) ∧
    (min C2 D2 ≤ p.2 ∧ p.2 ≤ max C2 D2) := by
  subst hD hN hNB hp
  have hx2 := param_line_eq A1 A2 B1 B2 C1 C2 D1 D2 hDne
  have hy2 := param_line_eq_y A1 A2 B1 B2 C1 C2 D1 D2 hDne
  refine ⟨⟨(convex_between hua.1 hua.2).1, (convex_between hua.1 hua.2).2⟩,
          ⟨(convex_between hua.1 hua.2).1, (convex_between hua.1 hua.2).2⟩, ?_, ?_⟩
  · show min C1 D1 ≤ A1 + _ / _ * (B1 - A1) ∧ A1 + _ / _ * (B1 - A1) ≤ max C1 D1
    rw [hx2]
    exact ⟨(convex_between hub.1 hub.2).1, (convex_between hub.1 hub.2).2⟩
  · show min C2 D2 ≤ A2 + _ / _ * (B2 - A2) ∧ A2 + _ / _ * (B2 - A2) ≤ max C2 D2
    rw [hy2]
    exact ⟨(convex_between hub.1 hub.2).1, (convex_between hub.1 hub.2).2⟩

/-- A computed intersection point lies inside the bounding boxes of both
segments. -/
theorem calculate_intersection_bounds {s1 s2 : NodeRefSegment} {p : ℚ × ℚ}
    (h : calculate_intersection s1 s2 = some p) :
    (min (locQx s1.first.loc) (locQx s1.second.loc) ≤ p.1
      ∧ p.1 ≤ max (locQx s1.first.loc) (locQx s1.second.loc))
    ∧ (min (locQy s1.first.loc) (locQy s1.second.loc) ≤ p.2
      ∧ p.2 ≤ max (locQy s1.first.loc) (locQy s1.second.loc))
    ∧ (min (locQx s2.first.loc) (locQx s2.second.loc) ≤ p.1
      ∧ p.1 ≤ max (locQx s2.first.loc) (locQx s2.second.loc))
    ∧ (min (locQy s2.first.loc) (locQy s2.second.loc) ≤ p.2
      ∧ p.2 ≤ max (locQy s2.first.loc) (locQy s2.second.loc)) := by
  simp only [calculate_intersection] at h
  split at h
  · cases h
  · split at h
    · cases h
    · rename_i hshare hden
      split at h
      · rename_i hcond
        have hp := (Option.some.inj h).symm
        have hua := div_unit_of_int
          ((s2.second.loc.x - s2.first.loc.x) * (s1.first.loc.y - s2.first.loc.y)
            - (s2.second.loc.y - s2.first.loc.y) * (s1.first.loc.x - s2.first.loc.x))
          ((s2.second.loc.y - s2.first.loc.y) * (s1.second.loc.x - s1.first.loc.x)
            - (s2.second.loc.x - s2.first.loc.x) * (s1.second.loc.y - s1.first.loc.y))
          (by rcases hcond with ⟨h1, h2, h3, h4, h5⟩ | ⟨h1, h2, h3, h4, h5⟩
              · exact Or.inl ⟨h1, h2, h3⟩
              · exact Or.inr ⟨h1, h2, h3⟩)
        have hub := div_unit_of_int
          ((s1.second.loc.x - s1.first.loc.x) * (s1.first.loc.y - s2.first.loc.y)
            - (s1.second.loc.y - s1.first.loc.y) * (s1.first.loc.x - s2.first.loc.x))
          ((s2.second.loc.y - s2.first.loc.y) * (s1.second.loc.x - s1.first.loc.x)
            - (s2.second.loc.x - s2.first.loc.x) * (s1.second.loc.y - s1.first.loc.y))
          (by rcases hcond with ⟨h1, h2, h3, h4, h5⟩ | ⟨h1, h2, h3, h4, h5⟩
              · exact Or.inl ⟨h1, h4, h5⟩
              · exact Or.inr ⟨h1, h4, h5⟩)
        refine intersect_bounds_q (locQx s1.first.loc) (locQy s1.first.loc)
            (locQx s1.second.loc) (locQy s1.second.loc)
            (locQx s2.first.loc) (locQy s2.first.loc)
            (locQx s2.second.loc) (locQy s2.second.loc)
            (((s2.second.loc.x - s2.first.loc.x) * (s1.first.loc.y - s2.first.loc.y)
              - (s2.second.loc.y - s2.first.loc.y) * (s1.first.loc.x - s2.first.loc.x) : Int) : ℚ)
            (((s1.second.loc.x - s1.first.loc.x) * (s1.first.loc.y - s2.first.loc.y)
              - (s1.second.loc.y - s1.first.loc.y) * (s1.first.loc.x - s2.first.loc.x) : Int) : ℚ)
            (((s2.second.loc.y - s2.first.loc.y) * (s1.second.loc.x - s1.first.loc.x)
              - (s2.second.loc.x - s2.first.loc.x) * (s1.second.loc.y - s1.first.loc.y) : Int) : ℚ)
            p ?_ ?_ ?_ ?_ ?_ ?_ ?_
        · simp only [locQx, locQy]
          push_cast
          ring
        · simp only [locQx, locQy]
          push_cast
          ring
        · simp only [locQx, locQy]
          push_cast
          ring
        · rw [Ne, Int.cast_eq_zero]
          exact hden
        · exact hua
        · exact hub
        · exact hp
      · cases h

/-- A pair that lies beyond the scan window cannot intersect: if both segments
are canonical (first x no larger than second x) and `s2` starts right of the
end of `s1`, the x-ranges are disjoint. -/
theorem outside_no_intersection {s1 s2 : NodeRefSegment}
    (h1 : s1.first.loc.x ≤ s1.second.loc.x)
    (h2 : s2.first.loc.x ≤ s2.second.loc.x)
    (hout : outside_x_range s2 s1 = true) :
    calculate_intersection s1 s2 = none := by
  cases hcalc : calculate_intersection s1 s2 with
  | none => rfl
  | some p =>
    exfalso
    obtain ⟨⟨_, hx1hi⟩, _, ⟨hx2lo, _⟩, _⟩ := calculate_intersection_bounds hcalc
    simp only [outside_x_range, gt_iff_lt, decide_eq_true_eq] at hout
    have hq1 : locQx s1.first.loc ≤ locQx s1.second.loc := by
      unfold locQx
      exact_mod_cast h1
    have hq2 : locQx s2.first.loc ≤ locQx s2.second.loc := by
      unfold locQx
      exact_mod_cast h2
    have hqo : locQx s1.second.loc < locQx s2.first.loc := by
      unfold locQx
      exact_mod_cast hout
    rw [max_eq_right hq1] at hx1hi
    rw [min_eq_left hq2] at hx2lo
    linarith

/-- A pair whose y-ranges are disjoint cannot intersect. -/
theorem no_y_overlap_no_intersection {s1 s2 : NodeRefSegment}
    (hov : y_range_overlap s1 s2 = false) :
    calculate_intersection s1 s2 = none := by
  cases hcalc : calculate_intersection s1 s2 with
  | none => rfl
  | some p =>
    exfalso
    obtain ⟨_, ⟨hy1lo, hy1hi⟩, _, ⟨hy2lo, hy2hi⟩⟩ := calculate_intersection_bounds hcalc
    simp only [y_range_overlap, decide_eq_false_iff_not, not_not, gt_iff_lt] at hov
    have hmin1 : ((min s1.first.loc.y s1.second.loc.y : ℤ) : ℚ)
        = min (locQy s1.first.loc) (locQy s1.second.loc) := by
      simp [locQy, Int.cast_min]
    have hmax1 : ((max s1.first.loc.y s1.second.loc.y : ℤ) : ℚ)
        = max (locQy s1.first.loc) (locQy s1.second.loc) := by
      simp [locQy, Int.cast_max]
    have hmin2 : ((min s2.first.loc.y s2.second.loc.y : ℤ) : ℚ)
        = min (locQy s2.first.loc) (locQy s2.second.loc) := by
      simp [locQy, Int.cast_min]
    have hmax2 : ((max s2.first.loc.y s2.second.loc.y : ℤ) : ℚ)
        = max (locQy s2.first.loc) (locQy s2.second.loc) := by
      simp [locQy, Int.cast_max]
    rcases hov with hcase | hcase
    · have : ((max s2.first.loc.y s2.second.loc.y : ℤ) : ℚ)
          < ((min s1.first.loc.y s1.second.loc.y : ℤ) : ℚ) := by exact_mod_cast hcase
      rw [hmax2, hmin1] at this
      linarith
    · have : ((max s1.first.loc.y s1.second.loc.y : ℤ) : ℚ)
          < ((min s2.first.loc.y s2.second.loc.y : ℤ) : ℚ) := by exact_mod_cast hcase
      rw [hmax1, hmin2] at this
      linarith

theorem pairCross_none_of_outside {s1 s2 : NodeRefSegment}
    (h1 : s1.first.loc.x ≤ s1.second.loc.x)
    (h2 : s2.first.loc.x ≤ s2.second.loc.x)
    (hout : outside_x_range s2 s1 = true) :
    pairCross s1 s2 = none := by
  unfold pairCross
  split
  · rfl
  · rw [outside_no_intersection h1 h2 hout]

theorem segLe_first_x {a b : NodeRefSegment} (h : segLe a b = true) :
    a.first.loc.x ≤ b.first.loc.x := by
  simp only [segLe, keyLe4, segKey, decide_eq_true_eq] at h
  omega

/-! ### Characterization of the intersection scan -/

theorem any_map_fn {α β : Type} (f : α → β) (l : List α) (p : β → Bool) :
    (l.map f).any p = l.any (fun x => p (f x)) := by
  induction l with
  | nil => rfl
  | cons a t ih => simp [ih]

theorem filterMap_map_fn {α β γ : Type} (f : α → β) (g : β → Option γ) (l : List α) :
    (l.map f).filterMap g = l.filterMap (fun x => g (f x)) := by
  induction l with
  | nil => rfl
  | cons a t ih =>
    simp only [List.map_cons, List.filterMap_cons, ih]

/-- On canonical, sorted input, the inner scan for `s1` detects exactly the
crossing pairs `(s1, s2)` over the whole remaining list: the window break and
the y-range filter skip only pairs that cannot cross. -/
theorem scanFrom_eq (remember : Bool) (s1 : NodeRefSegment)
    (rest : List NodeRefSegment) (acc : List Problem)
    (hc1 : s1.first.loc.x ≤ s1.second.loc.x)
    (hcr : ∀ s ∈ rest, s.first.loc.x ≤ s.second.loc.x)
    (hsr : rest.Pairwise (fun a b => segLe a b = true)) :
    scanFrom remember s1 acc rest =
      (rest.any (fun s2 => (pairCross s1 s2).isSome),
       acc ++ (if remember then rest.filterMap (fun s2 => pairCross s1 s2) else [])) := by
  induction rest generalizing acc with
  | nil => simp [scanFrom]
  | cons s2 rest2 ih =>
    have hc2 : s2.first.loc.x ≤ s2.second.loc.x := hcr s2 (List.mem_cons_self _ _)
    have hcr2 : ∀ s ∈ rest2, s.first.loc.x ≤ s.second.loc.x :=
      fun s hs => hcr s (List.mem_cons_of_mem _ hs)
    have hsr2 : rest2.Pairwise (fun a b => segLe a b = true) := hsr.of_cons
    simp only [scanFrom]
    rcases heq : segEqB s1 s2 with _ | _
    · simp only [Bool.false_eq_true, if_false]
      rcases hout : outside_x_range s2 s1 with _ | _
      · simp only [Bool.false_eq_true, if_false]
        rcases hov : y_range_overlap s1 s2 with _ | _
        · have hnone : calculate_intersection s1 s2 = none :=
            no_y_overlap_no_intersection hov
          have hpc : pairCross s1 s2 = none := by
            unfold pairCross
            rw [heq, hnone]
            simp
          rw [ih acc hcr2 hsr2]
          simp [hnone, hpc]
        · simp only [if_true]
          cases hcalc : calculate_intersection s1 s2 with
          | none =>
            have hpc : pairCross s1 s2 = none := by
              unfold pairCross
              rw [heq, hcalc]
              simp
            rw [ih acc hcr2 hsr2]
            simp [hpc]
          | some p =>
            have hpc : pairCross s1 s2 = some (Problem.intersection p s1 s2) := by
              unfold pairCross
              rw [heq, hcalc]
              simp
            have hsnd : ∀ a, (scanFrom remember s1 a rest2).2
                = a ++ (if remember then rest2.filterMap (fun x => pairCross s1 x) else []) :=
              fun a => congrArg Prod.snd (ih a hcr2 hsr2)
            refine Prod.ext ?_ ?_
            · simp [hpc]
            · show (scanFrom remember s1
                  (if remember then acc ++ [Problem.intersection p s1 s2] else acc) rest2).2 = _
              rcases remember with _ | _
              · simp only [Bool.false_eq_true, if_false]
                rw [hsnd acc]
                simp
              · simp only [if_true]
                rw [hsnd (acc ++ [Problem.intersection p s1 s2])]
                simp [hpc]
      · -- break: nothing in the rest of the window can cross s1
        have hnone : ∀ x ∈ s2 :: rest2, pairCross s1 x = none := by
          intro x hx
          rcases List.mem_cons.mp hx with rfl | hx2
          · exact pairCross_none_of_outside hc1 hc2 hout
          · have hle : segLe s2 x = true := (List.pairwise_cons.mp hsr).1 x hx2
            have hxx : outside_x_range x s1 = true := by
              simp only [outside_x_range, gt_iff_lt, decide_eq_true_eq] at hout ⊢
              have := segLe_first_x hle
              omega
            exact pairCross_none_of_outside hc1 (hcr x hx) hxx
        have hany : (s2 :: rest2).any (fun x => (pairCross s1 x).isSome) = false := by
          simp only [List.any_eq_false]
          intro x hx
          rw [hnone x hx]
          simp
        have hfm : (s2 :: rest2).filterMap (fun x => pairCross s1 x) = [] := by
          rw [List.filterMap_eq_nil_iff]
          exact hnone
        rw [hany, hfm]
        simp
    · -- identical segment: skipped, and pairCross is none by definition
      have hpc : pairCross s1 s2 = none := by
        unfold pairCross
        rw [heq]
        simp
      rw [ih acc hcr2 hsr2]
      simp [hpc]

/-- On canonical, sorted input, `find_intersections` returns exactly "some
pair of non-identical segments crosses", and (when problems are remembered)
appends exactly one intersection problem per crossing pair, in scan order. -/
theorem findIntersections_eq (remember : Bool) (acc : List Problem)
    (l : List NodeRefSegment)
    (hc : ∀ s ∈ l, s.first.loc.x ≤ s.second.loc.x)
    (hs : l.Pairwise (fun a b => segLe a b = true)) :
    findIntersections remember acc l =
      (anyCrossing l, acc ++ (if remember then crossingProblems l else [])) := by
  induction l generalizing acc with
  | nil => simp [findIntersections, anyCrossing, crossingProblems, allPairs]
  | cons s1 rest ih =>
    have hc1 : s1.first.loc.x ≤ s1.second.loc.x := hc s1 (List.mem_cons_self _ _)
    have hcr : ∀ s ∈ rest, s.first.loc.x ≤ s.second.loc.x :=
      fun s hsm => hc s (List.mem_cons_of_mem _ hsm)
    have hsr : rest.Pairwise (fun a b => segLe a b = true) := hs.of_cons
    simp only [findIntersections]
    rw [scanFrom_eq remember s1 rest acc hc1 hcr hsr]
    simp only
    rw [ih _ hcr hsr]
    have hany : anyCrossing (s1 :: rest)
        = (rest.any (fun s2 => (pairCross s1 s2).isSome) || anyCrossing rest) := by
      simp only [anyCrossing, allPairs, List.any_append, any_map_fn]
    have hcp : crossingProblems (s1 :: rest)
        = rest.filterMap (fun s2 => pairCross s1 s2) ++ crossingProblems rest := by
      simp only [crossingProblems, allPairs, List.filterMap_append, filterMap_map_fn]
    rw [hany, hcp]
    rcases remember with _ | _ <;> simp

/-- The boolean outcome of the inner scan does not depend on the
`remember_problems` flag or on the problems accumulated so far. -/
theorem scanFrom_fst_const (r r2 : Bool) (s1 : NodeRefSegment)
    (rest : List NodeRefSegment) (acc acc2 : List Problem) :
    (scanFrom r s1 acc rest).1 = (scanFrom r2 s1 acc2 rest).1 := by
  induction rest generalizing acc acc2 with
  | nil => rfl
  | cons s2 rest2 ih =>
    simp only [scanFrom]
    rcases segEqB s1 s2 with _ | _
    · simp only [Bool.false_eq_true, if_false]
      rcases outside_x_range s2 s1 with _ | _
      · simp only [Bool.false_eq_true, if_false]
        rcases y_range_overlap s1 s2 with _ | _
        · simp only [Bool.false_eq_true, if_false]
          exact ih acc acc2
        · simp only [if_true]
          cases calculate_intersection s1 s2 with
          | none => exact ih acc acc2
          | some p => rfl
      · rfl
    · simp only [if_true]
      exact ih acc acc2

/-- The boolean outcome of `find_intersections` does not depend on the
`remember_problems` flag or on the problems accumulated so far. -/
theorem findIntersections_fst_const (r r2 : Bool) (acc acc2 : List Problem)
    (l : List NodeRefSegment) :
    (findIntersections r acc l).1 = (findIntersections r2 acc2 l).1 := by
  induction l generalizing acc acc2 with
  | nil => rfl
  | cons s1 rest ih =>
    simp only [findIntersections]
    rw [scanFrom_fst_const r r2 s1 rest acc acc2, ih]

/-- The inner scan only appends to the problem list. -/
theorem scanFrom_snd_prefix (r : Bool) (s1 : NodeRefSegment)
    (rest : List NodeRefSegment) (acc : List Problem) :
    ∃ l2, (scanFrom r s1 acc rest).2 = acc ++ l2 := by
  induction rest generalizing acc with
  | nil => exact ⟨[], by simp [scanFrom]⟩
  | cons s2 rest2 ih =>
    simp only [scanFrom]
    rcases segEqB s1 s2 with _ | _
    · simp only [Bool.false_eq_true, if_false]
      rcases outside_x_range s2 s1 with _ | _
      · simp only [Bool.false_eq_true, if_false]
        rcases y_range_overlap s1 s2 with _ | _
        · simp only [Bool.false_eq_true, if_false]
          exact ih acc
        · simp only [if_true]
          cases calculate_intersection s1 s2 with
          | none => exact ih acc
          | some p =>
            rcases r with _ | _
            · simpa using ih acc
            · obtain ⟨l2, hl2⟩ := ih (acc ++ [Problem.intersection p s1 s2])
              exact ⟨Problem.intersection p s1 s2 :: l2, by simp [hl2]⟩
      · exact ⟨[], by simp⟩
    · simp only [if_true]
      exact ih acc

/-- `find_intersections` only appends to the problem list. -/
theorem findIntersections_snd_prefix (r : Bool) (acc : List Problem)
    (l : List NodeRefSegment) :
    ∃ l2, (findIntersections r acc l).2 = acc ++ l2 := by
  induction l generalizing acc with
  | nil => exact ⟨[], by simp [findIntersections]⟩
  | cons s1 rest ih =>
    simp only [findIntersections]
    obtain ⟨l1, hl1⟩ := scanFrom_snd_prefix r s1 rest acc
    obtain ⟨l2, hl2⟩ := ih (scanFrom r s1 acc rest).2
    exact ⟨l1 ++ l2, by rw [hl2, hl1, List.append_assoc]⟩

/-- When the scan reports no intersection it has appended no problem. -/
theorem scanFrom_fst_false_snd {r : Bool} {s1 : NodeRefSegment}
    {rest : List NodeRefSegment} {acc : List Problem}
    (h : (scanFrom r s1 acc rest).1 = false) :
    (scanFrom r s1 acc rest).2 = acc := by
  induction rest generalizing acc with
  | nil => rfl
  | cons s2 rest2 ih =>
    rcases heq : segEqB s1 s2 with _ | _
    · rcases hout : outside_x_range s2 s1 with _ | _
      · rcases hov : y_range_overlap s1 s2 with _ | _
        · have hred : scanFrom r s1 acc (s2 :: rest2) = scanFrom r s1 acc rest2 := by
            simp only [scanFrom, heq, hout, hov]
            simp
          rw [hred] at h ⊢
          exact ih h
        · cases hcalc : calculate_intersection s1 s2 with
          | none =>
            have hred : scanFrom r s1 acc (s2 :: rest2) = scanFrom r s1 acc rest2 := by
              simp only [scanFrom, heq, hout, hov, hcalc]
              simp
            rw [hred] at h ⊢
            exact ih h
          | some p =>
            have hred : (scanFrom r s1 acc (s2 :: rest2)).1 = true := by
              simp only [scanFrom, heq, hout, hov, hcalc]
              simp
            rw [hred] at h
            cases h
      · have hred : scanFrom r s1 acc (s2 :: rest2) = (false, acc) := by
          simp only [scanFrom, heq, hout]
          simp
        rw [hred]
    · have hred : scanFrom r s1 acc (s2 :: rest2) = scanFrom r s1 acc rest2 := by
        simp only [scanFrom, heq]
        simp
      rw [hred] at h ⊢
      exact ih h

/-- When `find_intersections` reports no intersection it has appended no
problem. -/
theorem findIntersections_fst_false_snd {r : Bool} {acc : List Problem}
    {l : List NodeRefSegment}
    (h : (findIntersections r acc l).1 = false) :
    (findIntersections r acc l).2 = acc := by
  induction l generalizing acc with
  | nil => rfl
  | cons s1 rest ih =>
    simp only [findIntersections] at h ⊢
    rcases Bool.or_eq_false_iff.mp h with ⟨h1, h2⟩
    rw [ih h2, scanFrom_fst_false_snd h1]

/-! ### Ring building

`ProtoRing` and its operations live in `area/detail/proto_ring.hpp`, which is
not part of the analysed sources; they are modelled from spec §3, §4.7 and
§4.9. The driving loop (assembler.hpp lines 276-387) is embedded from the
source, with the C++ pointer graph (segment→ring back-pointers, the `std::list`
of rings with stable addresses) rendered as stable integer ring ids. -/

/-- Modelled from the spec: a `ProtoRing` is an ordered sequence of node
references forming a polyline, open or closed; it is flagged outer/inner from
the `cw` orientation of its founding segment (spec §4.9: a ring is outer iff
its cw annotation is true). -/
structure ProtoRing where
  nodes : List NodeRef
  outerFlag : Bool
deriving DecidableEq, Repr

/-- `ProtoRing::first()`. -/
def ringFirst (r : ProtoRing) : NodeRef := r.nodes.headD defaultNodeRef

/-- `ProtoRing::last()`. -/
def ringLast (r : ProtoRing) : NodeRef := r.nodes.getLastD defaultNodeRef

/-- Modelled from the spec (§3): `closed == (first() == last() && len > 1)`. -/
def ringClosed (r : ProtoRing) : Bool :=
  nodeRefEq (ringFirst r) (ringLast r) && decide (r.nodes.length > 1)

/-- `Assembler::is_below` (assembler.hpp lines 76-84): whether `loc` lies on
or below the line through the segment, by the sign of the 2D cross product.
The source computes in `double`; the embedding computes exactly over ℤ. -/
def is_below (loc : Location) (seg : NodeRefSegment) : Bool :=
  let ax := seg.first.loc.x
  let ay := seg.first.loc.y
  let bx := seg.second.loc.x
  let by2 := seg.second.loc.y
  decide ((bx - ax) * (loc.y - ay) - (by2 - ay) * (loc.x - ax) ≤ 0)

/-- The per-segment mutable state of the assembler loop: the segment value
plus its `cw` flag, its ring back-pointer (as a stable ring id) and its left
neighbor, recorded in processing order. -/
structure SegAnnot where
  seg : NodeRefSegment
  cw : Bool
  ringId : Option Nat
  leftSeg : Option NodeRefSegment
deriving DecidableEq, Repr

/-- The y-range test of the backward scan (assembler.hpp lines 355-356):
`minmax(o.first.y, o.second.y)` spans `loc.y`. -/
def ySpans (o : NodeRefSegment) (loc : Location) : Bool :=
  decide (min o.first.loc.y o.second.loc.y ≤ loc.y
    ∧ loc.y ≤ max o.first.loc.y o.second.loc.y)

/-- The first x-test of the backward scan (assembler.hpp lines 360-361): both
endpoints of the earlier segment have x ≤ `loc.x`. -/
def bothXLe (o : NodeRefSegment) (loc : Location) : Bool :=
  decide (o.first.loc.x ≤ loc.x ∧ o.second.loc.x ≤ loc.x)

/-- The backward scan over already-processed segments (assembler.hpp lines
351-372), given most-recent-first: on the first segment whose y-range spans
`loc.y`, try the both-x test, then the `is_below` test; on a hit inherit the
negated `cw` and record the left neighbor, otherwise keep scanning. -/
def scanBack (loc : Location) : List SegAnnot → Bool × Option SegAnnot
  | [] => (true, none)
  | o :: earlier =>
      if ySpans o.seg loc then
        if bothXLe o.seg loc then (!o.cw, some o)
        else if is_below loc o.seg then (!o.cw, some o)
        else scanBack loc earlier
      else scanBack loc earlier

/-- Orientation for a segment starting a new ring (assembler.hpp lines
344-377): scan the previously processed segments backwards; default is
clockwise. -/
def computeCw (processed : List SegAnnot) (loc : Location) : Bool × Option SegAnnot :=
  scanBack loc processed.reverse

/-- Which of the four endpoint tests (assembler.hpp lines 290-329) matched. -/
inductive JoinKind where
  | lastFirst
  | lastSecond
  | firstFirst
  | firstSecond
deriving DecidableEq, Repr

/-- The four endpoint tests against one ring, in source order (only open
rings are considered). -/
def ringMatch (r : ProtoRing) (s : NodeRefSegment) : Option JoinKind :=
  if ringClosed r then none
  else if nodeRefEq (ringLast r) s.first then some .lastFirst
  else if nodeRefEq (ringLast r) s.second then some .lastSecond
  else if nodeRefEq (ringFirst r) s.first then some .firstFirst
  else if nodeRefEq (ringFirst r) s.second then some .firstSecond
  else none

/-- Find the first ring in list order that the segment joins. -/
def findJoin : List (Nat × ProtoRing) → NodeRefSegment → Option (Nat × JoinKind)
  | [], _ => none
  | (rid, r) :: rest, s =>
      match ringMatch r s with
      | some k => some (rid, k)
      | none => findJoin rest s

/-- `add_location_end` / `add_location_start`: append the opposite endpoint
to the matched end of the ring. -/
def extendRing (r : ProtoRing) (s : NodeRefSegment) : JoinKind → ProtoRing
  | .lastFirst => { r with nodes := r.nodes ++ [s.second] }
  | .lastSecond => { r with nodes := r.nodes ++ [s.first] }
  | .firstFirst => { r with nodes := s.second :: r.nodes }
  | .firstSecond => { r with nodes := s.first :: r.nodes }

/-- Look a ring up by its stable id. -/
def getRing (rid : Nat) (rings : List (Nat × ProtoRing)) : Option ProtoRing :=
  (rings.find? (fun p => p.1 == rid)).map Prod.snd

/-- Replace the ring stored under an id. -/
def updateRing (rid : Nat) (f : ProtoRing → ProtoRing)
    (rings : List (Nat × ProtoRing)) : List (Nat × ProtoRing) :=
  rings.map (fun p => if p.1 == rid then (p.1, f p.2) else p)

/-- Remove the ring stored under an id. -/
def removeRing (rid : Nat) (rings : List (Nat × ProtoRing)) : List (Nat × ProtoRing) :=
  rings.filter (fun p => !(p.1 == rid))

/-- Modelled from the spec (§4.7): after extending the *end* of the target
ring, if the new end equals the start or end of any other open ring, splice
the two rings into one (the target survives) and report the absorbed ring's
id. -/
def combineRingsEnd (targetId : Nat) (rings : List (Nat × ProtoRing)) :
    List (Nat × ProtoRing) × Option Nat :=
  match getRing targetId rings with
  | none => (rings, none)
  | some r =>
      let e := ringLast r
      match (removeRing targetId rings).find?
          (fun p => !(ringClosed p.2)
            && (nodeRefEq (ringFirst p.2) e || nodeRefEq (ringLast p.2) e)) with
      | none => (rings, none)
      | some (qid, q) =>
          let merged := if nodeRefEq (ringFirst q) e
                        then r.nodes ++ q.nodes.tail
                        else r.nodes ++ q.nodes.reverse.tail
          (removeRing qid (updateRing targetId
              (fun rr => { rr with nodes := merged }) rings), some qid)

/-- Modelled from the spec (§4.7): after extending the *start* of the target
ring, if the new start equals the end or start of any other open ring, splice
the two rings into one (the target survives) and report the absorbed ring's
id. -/
def combineRingsStart (targetId : Nat) (rings : List (Nat × ProtoRing)) :
    List (Nat × ProtoRing) × Option Nat :=
  match getRing targetId rings with
  | none => (rings, none)
  | some r =>
      let s := ringFirst r
      match (removeRing targetId rings).find?
          (fun p => !(ringClosed p.2)
            && (nodeRefEq (ringLast p.2) s || nodeRefEq (ringFirst p.2) s)) with
      | none => (rings, none)
      | some (qid, q) =>
          let merged := if nodeRefEq (ringLast q) s
                        then q.nodes ++ r.nodes.tail
                        else q.nodes.reverse ++ r.nodes.tail
          (removeRing qid (updateRing targetId
              (fun rr => { rr with nodes := merged }) rings), some qid)

/-- `update_ring_link_in_segments` (assembler.hpp lines 129-135): repoint
every segment annotation referring to the absorbed ring at the surviving
ring. -/
def relabelAnnots (absorbed : Option Nat) (rid : Nat)
    (annots : List SegAnnot) : List SegAnnot :=
  match absorbed with
  | none => annots
  | some old =>
      annots.map (fun a => if a.ringId == some old
                           then { a with ringId := some rid } else a)

/-- The whole state of the ring-building loop. -/
structure BuildState where
  rings : List (Nat × ProtoRing)
  nextId : Nat
  processed : List SegAnnot
deriving DecidableEq, Repr

/-- One iteration of the ring-building loop (assembler.hpp lines 277-387):
either the segment joins the first matching open ring (extend, combine,
relabel), or it founds a new ring with an orientation from the backward
scan. -/
def buildStep (st : BuildState) (s : NodeRefSegment) : BuildState :=
  match findJoin st.rings s with
  | some (rid, k) =>
      let rings1 := updateRing rid (fun r => extendRing r s k) st.rings
      let res :=
        match k with
        | .lastFirst => combineRingsEnd rid rings1
        | .lastSecond => combineRingsEnd rid rings1
        | .firstFirst => combineRingsStart rid rings1
        | .firstSecond => combineRingsStart rid rings1
      { rings := res.1,
        nextId := st.nextId,
        processed := relabelAnnots res.2 rid st.processed
          ++ [⟨s, false, some rid, none⟩] }
  | none =>
      let cwl := computeCw st.processed s.first.loc
      { rings := st.rings ++ [(st.nextId, ⟨[s.first, s.second], cwl.1⟩)],
        nextId := st.nextId + 1,
        processed := st.processed
          ++ [⟨s, cwl.1, some st.nextId, (cwl.2).map (fun o => o.seg)⟩] }

/-- The ring-building loop over all segments. -/
def buildRings (segs : List NodeRefSegment) : BuildState :=
  segs.foldl buildStep ⟨[], 0, []⟩

/-- `Assembler::check_for_open_rings` (assembler.hpp lines 137-151): walk all
rings; for each open ring record two `ring_not_closed` problems (first node,
then last node) when remembering problems; return whether any ring is open. -/
def checkOpenRings (remember : Bool) (acc : List Problem) :
    List (Nat × ProtoRing) → Bool × List Problem
  | [] => (false, acc)
  | (_, r) :: rest =>
      if !(ringClosed r) then
        let acc2 := if remember
          then acc ++ [Problem.ringNotClosed (ringFirst r),
                       Problem.ringNotClosed (ringLast r)]
          else acc
        (true, (checkOpenRings remember acc2 rest).2)
      else checkOpenRings remember acc rest

/-- The problems `check_for_open_rings` records, at claim level: two per open
ring, in ring order. -/
def openRingProblems (rings : List (Nat × ProtoRing)) : List Problem :=
  (rings.filter (fun p => !(ringClosed p.2))).flatMap
    (fun p => [Problem.ringNotClosed (ringFirst p.2),
               Problem.ringNotClosed (ringLast p.2)])

/-! ### Classification, emission, and the full assembler -/

/-- Modelled from the spec (§4.9): an even-odd (crossing-number) test of a
point against a closed polyline, used by `ProtoRing::find_outer` to locate the
enclosing outer ring (`detail/proto_ring.hpp` is not in the analysed
sources). -/
def pointInRing (p : Location) (nodes : List NodeRef) : Bool :=
  ((nodes.zip nodes.tail).countP (fun e =>
    let u := e.1.loc
    let v := e.2.loc
    decide ((u.y > p.y) ≠ (v.y > p.y)) &&
    (if v.y > u.y
     then decide ((v.x - u.x) * (p.y - u.y) - (p.x - u.x) * (v.y - u.y) > 0)
     else decide ((v.x - u.x) * (p.y - u.y) - (p.x - u.x) * (v.y - u.y) < 0)))) % 2 == 1

/-- Modelled from the spec (§4.9): `ProtoRing::find_outer` — locate the first
outer ring whose polyline contains the inner ring (tested at the inner ring's
first node). -/
def findOuter (inner : ProtoRing) (rings : List (Nat × ProtoRing)) : Option Nat :=
  (rings.find? (fun q => q.2.outerFlag && pointInRing (ringFirst inner).loc q.2.nodes)).map
    Prod.fst

/-- The classification loop (assembler.hpp lines 413-435): walk the rings in
order, collecting outer ring ids in order and pairing each inner ring with its
enclosing outer; an inner ring with no enclosing outer aborts with `none`. -/
def classifyLoop (all : List (Nat × ProtoRing)) :
    List (Nat × ProtoRing) → List Nat × List (Nat × Nat) →
      Option (List Nat × List (Nat × Nat))
  | [], acc => some acc
  | (rid, r) :: rest, acc =>
      if r.outerFlag then
        classifyLoop all rest (acc.1 ++ [rid], acc.2)
      else
        match findOuter r all with
        | some oid => classifyLoop all rest (acc.1, acc.2 ++ [(oid, rid)])
        | none => none

/-- Classify all rings of the build state. -/
def classifyRings (rings : List (Nat × ProtoRing)) :
    Option (List Nat × List (Nat × Nat)) :=
  classifyLoop rings rings ([], [])

/-- One outer- or inner-ring block written into the output buffer. -/
inductive RingBlock where
  | outer (nodes : List NodeRef)
  | inner (nodes : List NodeRef)
deriving DecidableEq, Repr

/-- The emission loop (assembler.hpp lines 439-454): for each outer ring in
order, write its outer-ring block, then one inner-ring block per attached
inner ring, then commit the output buffer — one commit per outer ring. -/
def emitLoop (rings : List (Nat × ProtoRing)) (inns : List (Nat × Nat)) :
    List Nat → List RingBlock × Nat
  | [] => ([], 0)
  | oid :: rest =>
      let outerNodes := match getRing oid rings with
        | some r => r.nodes
        | none => []
      let innerBlocks := (inns.filter (fun p => p.1 == oid)).map (fun p =>
        RingBlock.inner (match getRing p.2 rings with
          | some r => r.nodes
          | none => []))
      let res := emitLoop rings inns rest
      (RingBlock.outer outerNodes :: innerBlocks ++ res.1, res.2 + 1)

/-- The kind of a relation member. -/
inductive MemberKind where
  | node
  | way
  | relation
deriving DecidableEq, Repr

/-- A relation member: kind, referenced id, role. -/
structure Member where
  type : MemberKind
  ref : Int
  role : String
deriving DecidableEq, Repr

/-- A relation: id, metadata, tags, ordered members. -/
structure Relation where
  id : Int
  version : Int
  changeset : Int
  timestamp : Int
  uid : Int
  visible : Bool
  user : String
  tags : List (String × String)
  members : List Member
deriving DecidableEq, Repr

/-- The header-and-tags part of the area record built at assembler.hpp lines
240-256: id `relation.id * 2 + 1`, metadata and tags copied from the
relation. -/
structure AreaHeader where
  id : Int
  version : Int
  changeset : Int
  timestamp : Int
  uid : Int
  visible : Bool
  user : String
  tags : List (String × String)
deriving DecidableEq, Repr

/-- Build the area header from the relation (assembler.hpp lines 240-256). -/
def areaHeaderOf (rel : Relation) : AreaHeader :=
  ⟨rel.id * 2 + 1, rel.version, rel.changeset, rel.timestamp, rel.uid,
   rel.visible, rel.user, rel.tags⟩

/-- Which exit `Assembler::operator()` takes. -/
inductive AssembleOutcome where
  | invalidIntersections
  | invalidOpenRings
  | invalidInnerNoOuter
  | ok
deriving DecidableEq, Repr

/-- Everything one invocation of `Assembler::operator()` writes: the area
header-and-tags record, the ring blocks appended to it, the number of
`out_buffer.commit()` calls, the resulting problem list (the incoming
`m_problems` plus anything recorded), and the exit taken. -/
structure AssembleOutput where
  header : AreaHeader
  ringBlocks : List RingBlock
  commits : Nat
  problems : List Problem
  outcome : AssembleOutcome
deriving DecidableEq, Repr

/-- `Assembler::operator()` (assembler.hpp lines 190-455): extract, sort and
deduplicate the segments; build the header-and-tags record; commit-and-return
on intersections; build rings; commit-and-return on open rings; classify
rings, commit-and-return when an inner ring has no enclosing outer; otherwise
emit each outer ring with its inner rings, committing once per outer ring. -/
def assembleCore (remember : Bool) (acc : List Problem) (rel : Relation)
    (ways : List Way) : AssembleOutput :=
  let segs := dedupedSegments ways
  let header := areaHeaderOf rel
  let fi := findIntersections remember acc segs
  if fi.1 then
    ⟨header, [], 1, fi.2, .invalidIntersections⟩
  else
    let st := buildRings segs
    let co := checkOpenRings remember fi.2 st.rings
    if co.1 then
      ⟨header, [], 1, co.2, .invalidOpenRings⟩
    else
      match classifyRings st.rings with
      | none => ⟨header, [], 1, co.2, .invalidInnerNoOuter⟩
      | some oi =>
          let em := emitLoop st.rings oi.2 oi.1
          ⟨header, em.1, em.2, co.2, .ok⟩

/-- The persistent assembler object: its problem list and configuration
flags (assembler.hpp lines 66-74). -/
structure Assembler where
  m_problems : List Problem
  m_remember_problems : Bool
  m_debug : Bool
deriving DecidableEq, Repr

/-- `Assembler::clear_problems` (assembler.hpp lines 179-181). -/
def Assembler.clear_problems (a : Assembler) : Assembler :=
  { a with m_problems := [] }

/-- `Assembler::problems` (assembler.hpp lines 186-188). -/
def Assembler.problems (a : Assembler) : List Problem :=
  a.m_problems

/-- One invocation of `Assembler::operator()` on the assembler object:
the problem list is threaded through the invocation. -/
def Assembler.call (a : Assembler) (rel : Relation) (ways : List Way) :
    Assembler × AssembleOutput :=
  let out := assembleCore a.m_remember_problems a.m_problems rel ways
  ({ a with m_problems := out.problems }, out)

/-! ### Support lemmas about the pipeline -/

theorem mkSegment_canonical (a b : NodeRef) :
    (mkSegment a b).first.loc.x ≤ (mkSegment a b).second.loc.x := by
  unfold mkSegment
  split
  · rename_i hlt
    simp only [locLt, decide_eq_true_eq] at hlt
    show a.loc.x ≤ b.loc.x
    omega
  · rename_i hlt
    simp only [locLt, decide_eq_true_eq, not_or, not_and, not_lt] at hlt
    show b.loc.x ≤ a.loc.x
    omega

theorem extractLoop_canonical (l : List NodeRef) (last : NodeRef) :
    ∀ s ∈ extractLoop last l, s.first.loc.x ≤ s.second.loc.x := by
  induction l generalizing last with
  | nil => intro s hs; cases hs
  | cons nr rest ih =>
    intro s hs
    simp only [extractLoop] at hs
    split at hs
    · rcases List.mem_cons.mp hs with rfl | hs2
      · exact mkSegment_canonical last nr
      · exact ih nr s hs2
    · exact ih nr s hs

theorem extract_segments_canonical (ways : List Way) :
    ∀ s ∈ extract_segments ways, s.first.loc.x ≤ s.second.loc.x := by
  intro s hs
  simp only [extract_segments, List.mem_flatten, List.mem_map] at hs
  obtain ⟨l, ⟨w, _, rfl⟩, hsl⟩ := hs
  exact extractLoop_canonical w.nodes defaultNodeRef s hsl

theorem dedupedSegments_canonical (ways : List Way) :
    ∀ s ∈ dedupedSegments ways, s.first.loc.x ≤ s.second.loc.x := by
  intro s hs
  have h1 : s ∈ sortSegments (extract_segments ways) :=
    (removeDuplicateSegments_sublist _).mem hs
  have h2 : s ∈ extract_segments ways := (sortSegments_perm _).mem_iff.mp h1
  exact extract_segments_canonical ways s h2

theorem dedupedSegments_sorted (ways : List Way) :
    (dedupedSegments ways).Pairwise (fun a b => segLe a b = true) :=
  (sortSegments_sorted _).sublist (removeDuplicateSegments_sublist _)

theorem openRingProblems_cons (rid : Nat) (r : ProtoRing)
    (rest : List (Nat × ProtoRing)) :
    openRingProblems ((rid, r) :: rest)
      = (if !(ringClosed r) then [Problem.ringNotClosed (ringFirst r),
                                  Problem.ringNotClosed (ringLast r)] else [])
        ++ openRingProblems rest := by
  simp only [openRingProblems, List.filter_cons]
  rcases h : ringClosed r with _ | _ <;> simp [h]

/-- `check_for_open_rings` reports whether any ring is open and, when
remembering, appends exactly the open-ring problems in ring order. -/
theorem checkOpenRings_eq (remember : Bool) (acc : List Problem)
    (rings : List (Nat × ProtoRing)) :
    checkOpenRings remember acc rings
      = (rings.any (fun p => !(ringClosed p.2)),
         acc ++ (if remember then openRingProblems rings else [])) := by
  induction rings generalizing acc with
  | nil => simp [checkOpenRings, openRingProblems]
  | cons hd rest ih =>
    obtain ⟨rid, r⟩ := hd
    rw [openRingProblems_cons]
    simp only [checkOpenRings]
    rcases h : ringClosed r with _ | _
    · simp only [h, Bool.not_false, if_true]
      have hsnd : ∀ a, (checkOpenRings remember a rest).2
          = a ++ (if remember then openRingProblems rest else []) :=
        fun a => congrArg Prod.snd (ih a)
      refine Prod.ext ?_ ?_
      · simp [h]
      · show (checkOpenRings remember
            (if remember then acc ++ [Problem.ringNotClosed (ringFirst r),
                                      Problem.ringNotClosed (ringLast r)] else acc) rest).2 = _
        rcases remember with _ | _
        · simp only [Bool.false_eq_true, if_false]
          rw [hsnd acc]
          simp
        · simp only [if_true]
          rw [hsnd _]
          simp
    · simp only [h, Bool.not_true, Bool.false_eq_true, if_false]
      rw [ih acc]
      simp [h]

theorem emitLoop_commits (rings : List (Nat × ProtoRing))
    (inns : List (Nat × Nat)) (outs : List Nat) :
    (emitLoop rings inns outs).2 = outs.length := by
  induction outs with
  | nil => rfl
  | cons oid rest ih => simp [emitLoop, ih]

theorem length_filterMap_eq_length_filter {α β : Type} (f : α → Option β)
    (l : List α) :
    (l.filterMap f).length = (l.filter (fun x => (f x).isSome)).length := by
  induction l with
  | nil => rfl
  | cons a t ih =>
    simp only [List.filterMap_cons, List.filter_cons]
    cases h : f a with
    | none => simp [h, ih]
    | some b => simp [h, ih]

theorem pairCross_shape {s1 s2 : NodeRefSegment} {pr : Problem}
    (h : pairCross s1 s2 = some pr) :
    ∃ p, pr = Problem.intersection p s1 s2 := by
  unfold pairCross at h
  split at h
  · cases h
  · cases hcalc : calculate_intersection s1 s2 with
    | none => rw [hcalc] at h; cases h
    | some p =>
      rw [hcalc] at h
      cases h
      exact ⟨p, rfl⟩

theorem anyCrossing_false_crossingProblems {l : List NodeRefSegment}
    (h : anyCrossing l = false) : crossingProblems l = [] := by
  rw [crossingProblems, List.filterMap_eq_nil_iff]
  intro pq hpq
  simp only [anyCrossing, List.any_eq_false] at h
  have := h pq hpq
  cases hc : pairCross pq.1 pq.2 with
  | none => rfl
  | some pr => rw [hc] at this; simp at this

/-- The number of commits the assembler performs, at claim level: one on every
failure path, one per outer ring on the success path. -/
def outerRingCount (segs : List NodeRefSegment) : Nat :=
  match classifyRings (buildRings segs).rings with
  | some oi => oi.1.length
  | none => 0

/-- Concrete evaluation of the duplicate-removal loop through its fuelled
variant (the loop itself is defined by well-founded recursion). -/
theorem removeDuplicateSegments_eval {l r : List NodeRefSegment}
    (h : dedupFuel l.length l = some r) : removeDuplicateSegments l = r := by
  have h2 := dedupFuel_sufficient l.length l (Nat.le_refl _)
  rw [h] at h2
  exact (Option.some.inj h2).symm

/-- Concrete evaluation of the whole segment pipeline. -/
theorem dedupedSegments_eval {ways : List Way} {r : List NodeRefSegment}
    (h : dedupFuel (sortSegments (extract_segments ways)).length
          (sortSegments (extract_segments ways)) = some r) :
    dedupedSegments ways = r :=
  removeDuplicateSegments_eval h

/-! ### Claim C1: how often the output buffer is committed -/

/-- Counterexample to claim C1 as stated ("the output buffer is committed
exactly once per relation, both when assembly succeeds and when it fails"):
for a relation with no way members, assembly succeeds (no intersections, no
open rings, no classification error), the emission loop runs over zero outer
rings, and `out_buffer.commit()` is never called — the commit sits inside the
per-outer-ring loop (assembler.hpp line 453), not after it. -/
theorem c1_counterexample :
    (assembleCore false [] ⟨3, 1, 0, 0, 0, true, "", [], []⟩ []).outcome
        = AssembleOutcome.ok ∧
    (assembleCore false [] ⟨3, 1, 0, 0, 0, true, "", [], []⟩ []).commits = 0 := by
  have hdd : dedupedSegments [] = [] := dedupedSegments_eval (by rfl)
  simp only [assembleCore, hdd]
  constructor <;> rfl

/-- Claim C1 (corrected): on each failure path (intersections found, unclosed
rings, inner ring without an enclosing outer) the output buffer is committed
exactly once; on success it is committed once per outer ring — zero times for
zero outer rings, k times for k outer rings. -/
theorem c1_commit_counts (remember : Bool) (acc : List Problem)
    (rel : Relation) (ways : List Way) :
    (assembleCore remember acc rel ways).commits
      = (if (assembleCore remember acc rel ways).outcome = AssembleOutcome.ok
         then outerRingCount (dedupedSegments ways) else 1) := by
  simp only [assembleCore]
  split
  · simp
  · split
    · simp
    · split
      · simp
      · rename_i oi hcl
        simp only [emitLoop_commits]
        simp [outerRingCount, hcl]

/-! ### Claim C5: crossing segments abort assembly -/

/-- Claim C5: if any two non-identical segments of the deduplicated segment
set cross, `Assembler::operator()` commits an area record with metadata and
tags but zero ring blocks and returns without building rings; when
`remember_problems` is enabled, exactly one problem of kind `intersection`
(carrying the intersection location and the two segments) is recorded per
detected crossing. -/
theorem c5_intersection_failure (remember : Bool) (acc : List Problem)
    (rel : Relation) (ways : List Way)
    (h : ∃ pq ∈ allPairs (dedupedSegments ways), (pairCross pq.1 pq.2).isSome = true) :
    (assembleCore remember acc rel ways).outcome = AssembleOutcome.invalidIntersections ∧
    (assembleCore remember acc rel ways).ringBlocks = [] ∧
    (assembleCore remember acc rel ways).commits = 1 ∧
    (assembleCore remember acc rel ways).header = areaHeaderOf rel ∧
    (assembleCore remember acc rel ways).problems
      = acc ++ (if remember then crossingProblems (dedupedSegments ways) else []) ∧
    (crossingProblems (dedupedSegments ways)).length
      = ((allPairs (dedupedSegments ways)).filter
          (fun pq => (pairCross pq.1 pq.2).isSome)).length ∧
    (∀ pr ∈ crossingProblems (dedupedSegments ways),
      ∃ p s1 s2, pr = Problem.intersection p s1 s2) := by
  have hfi := findIntersections_eq remember acc (dedupedSegments ways)
      (dedupedSegments_canonical ways) (dedupedSegments_sorted ways)
  have hany : anyCrossing (dedupedSegments ways) = true := by
    rw [anyCrossing, List.any_eq_true]
    exact h
  rw [hany] at hfi
  simp only [assembleCore, hfi]
  refine ⟨rfl, rfl, rfl, rfl, rfl, length_filterMap_eq_length_filter _ _, ?_⟩
  intro pr hpr
  rw [crossingProblems] at hpr
  obtain ⟨pq, _, hsome⟩ := List.mem_filterMap.mp hpr
  obtain ⟨p, hp⟩ := pairCross_shape hsome
  exact ⟨p, pq.1, pq.2, hp⟩

/-- Witness for C5 at spec scenario 5: two ways forming an "X" (crossing in
the interior, no shared endpoint). -/
theorem c5_witness :
    (∃ pq ∈ allPairs (dedupedSegments
        [⟨3, [⟨1, ⟨true, 0, 0⟩⟩, ⟨2, ⟨true, 10, 10⟩⟩]⟩,
         ⟨4, [⟨3, ⟨true, 0, 10⟩⟩, ⟨4, ⟨true, 10, 0⟩⟩]⟩]),
      (pairCross pq.1 pq.2).isSome = true) ∧
    (assembleCore true [] ⟨9, 1, 0, 0, 0, true, "", [], []⟩
        [⟨3, [⟨1, ⟨true, 0, 0⟩⟩, ⟨2, ⟨true, 10, 10⟩⟩]⟩,
         ⟨4, [⟨3, ⟨true, 0, 10⟩⟩, ⟨4, ⟨true, 10, 0⟩⟩]⟩]).outcome
      = AssembleOutcome.invalidIntersections := by
  have hdd : dedupedSegments
      [⟨3, [⟨1, ⟨true, 0, 0⟩⟩, ⟨2, ⟨true, 10, 10⟩⟩]⟩,
       ⟨4, [⟨3, ⟨true, 0, 10⟩⟩, ⟨4, ⟨true, 10, 0⟩⟩]⟩]
      = [⟨⟨1, ⟨true, 0, 0⟩⟩, ⟨2, ⟨true, 10, 10⟩⟩⟩,
         ⟨⟨3, ⟨true, 0, 10⟩⟩, ⟨4, ⟨true, 10, 0⟩⟩⟩] :=
    dedupedSegments_eval (by rfl)
  have h : ∃ pq ∈ allPairs (dedupedSegments
      [⟨3, [⟨1, ⟨true, 0, 0⟩⟩, ⟨2, ⟨true, 10, 10⟩⟩]⟩,
       ⟨4, [⟨3, ⟨true, 0, 10⟩⟩, ⟨4, ⟨true, 10, 0⟩⟩]⟩]),
      (pairCross pq.1 pq.2).isSome = true := by
    rw [hdd]
    decide
  exact ⟨h, (c5_intersection_failure true [] ⟨9, 1, 0, 0, 0, true, "", [], []⟩
    [⟨3, [⟨1, ⟨true, 0, 0⟩⟩, ⟨2, ⟨true, 10, 10⟩⟩]⟩,
     ⟨4, [⟨3, ⟨true, 0, 10⟩⟩, ⟨4, ⟨true, 10, 0⟩⟩]⟩] h).1⟩

/-! ### Claim C6: open rings abort assembly -/

theorem openRingProblems_length (rings : List (Nat × ProtoRing)) :
    (openRingProblems rings).length
      = 2 * rings.countP (fun p => !(ringClosed p.2)) := by
  induction rings with
  | nil => rfl
  | cons hd rest ih =>
    obtain ⟨rid, r⟩ := hd
    rw [openRingProblems_cons]
    rcases h : ringClosed r with _ | _ <;>
      simp [List.countP_cons, h, ih] <;> omega

/-- Claim C6: if (with no intersections found) any `ProtoRing` is still open
after all segments are consumed, `Assembler::operator()` commits the tag-only
area record and returns without emitting ring blocks; when
`remember_problems` is enabled, exactly two `ring_not_closed` problems are
recorded per unclosed ring — one for its first node and one for its last
node. -/
theorem c6_open_ring_failure (remember : Bool) (acc : List Problem)
    (rel : Relation) (ways : List Way)
    (hnc : anyCrossing (dedupedSegments ways) = false)
    (hopen : ∃ pr ∈ (buildRings (dedupedSegments ways)).rings,
        ringClosed pr.2 = false) :
    (assembleCore remember acc rel ways).outcome = AssembleOutcome.invalidOpenRings ∧
    (assembleCore remember acc rel ways).ringBlocks = [] ∧
    (assembleCore remember acc rel ways).commits = 1 ∧
    (assembleCore remember acc rel ways).header = areaHeaderOf rel ∧
    (assembleCore remember acc rel ways).problems
      = acc ++ (if remember
                then openRingProblems (buildRings (dedupedSegments ways)).rings
                else []) ∧
    (openRingProblems (buildRings (dedupedSegments ways)).rings).length
      = 2 * (buildRings (dedupedSegments ways)).rings.countP
          (fun p => !(ringClosed p.2)) := by
  have hfi := findIntersections_eq remember acc (dedupedSegments ways)
      (dedupedSegments_canonical ways) (dedupedSegments_sorted ways)
  rw [hnc, anyCrossing_false_crossingProblems hnc] at hfi
  have hfi2 : findIntersections remember acc (dedupedSegments ways) = (false, acc) := by
    rw [hfi]
    rcases remember with _ | _ <;> simp
  have hco := checkOpenRings_eq remember acc (buildRings (dedupedSegments ways)).rings
  have hopenb : (buildRings (dedupedSegments ways)).rings.any
      (fun p => !(ringClosed p.2)) = true := by
    rw [List.any_eq_true]
    obtain ⟨pr, hm, hcl⟩ := hopen
    exact ⟨pr, hm, by rw [hcl]; rfl⟩
  simp only [assembleCore, hfi2]
  simp only [hco, hopenb]
  exact ⟨rfl, rfl, rfl, rfl, rfl, openRingProblems_length _⟩

/-- Witness for C6 at spec scenario 6: a single way forming an open chain
`(0,0)-(1,0)-(2,0)-(3,0)`; the assembly fails with an open ring and records
two `ring_not_closed` problems. -/
theorem c6_witness :
    anyCrossing (dedupedSegments
      [⟨5, [⟨1, ⟨true, 0, 0⟩⟩, ⟨2, ⟨true, 1, 0⟩⟩,
            ⟨3, ⟨true, 2, 0⟩⟩, ⟨4, ⟨true, 3, 0⟩⟩]⟩]) = false ∧
    (∃ pr ∈ (buildRings (dedupedSegments
        [⟨5, [⟨1, ⟨true, 0, 0⟩⟩, ⟨2, ⟨true, 1, 0⟩⟩,
              ⟨3, ⟨true, 2, 0⟩⟩, ⟨4, ⟨true, 3, 0⟩⟩]⟩])).rings,
      ringClosed pr.2 = false) ∧
    (assembleCore true [] ⟨9, 1, 0, 0, 0, true, "", [], []⟩
        [⟨5, [⟨1, ⟨true, 0, 0⟩⟩, ⟨2, ⟨true, 1, 0⟩⟩,
              ⟨3, ⟨true, 2, 0⟩⟩, ⟨4, ⟨true, 3, 0⟩⟩]⟩]).outcome
      = AssembleOutcome.invalidOpenRings ∧
    (assembleCore true [] ⟨9, 1, 0, 0, 0, true, "", [], []⟩
        [⟨5, [⟨1, ⟨true, 0, 0⟩⟩, ⟨2, ⟨true, 1, 0⟩⟩,
              ⟨3, ⟨true, 2, 0⟩⟩, ⟨4, ⟨true, 3, 0⟩⟩]⟩]).problems.length = 2 := by
  have hdd : dedupedSegments
      [⟨5, [⟨1, ⟨true, 0, 0⟩⟩, ⟨2, ⟨true, 1, 0⟩⟩,
            ⟨3, ⟨true, 2, 0⟩⟩, ⟨4, ⟨true, 3, 0⟩⟩]⟩]
      = [⟨⟨1, ⟨true, 0, 0⟩⟩, ⟨2, ⟨true, 1, 0⟩⟩⟩,
         ⟨⟨2, ⟨true, 1, 0⟩⟩, ⟨3, ⟨true, 2, 0⟩⟩⟩,
         ⟨⟨3, ⟨true, 2, 0⟩⟩, ⟨4, ⟨true, 3, 0⟩⟩⟩] :=
    dedupedSegments_eval (by rfl)
  have h1 : anyCrossing (dedupedSegments
      [⟨5, [⟨1, ⟨true, 0, 0⟩⟩, ⟨2, ⟨true, 1, 0⟩⟩,
            ⟨3, ⟨true, 2, 0⟩⟩, ⟨4, ⟨true, 3, 0⟩⟩]⟩]) = false := by
    rw [hdd]
    decide
  have h2 : ∃ pr ∈ (buildRings (dedupedSegments
      [⟨5, [⟨1, ⟨true, 0, 0⟩⟩, ⟨2, ⟨true, 1, 0⟩⟩,
            ⟨3, ⟨true, 2, 0⟩⟩, ⟨4, ⟨true, 3, 0⟩⟩]⟩])).rings,
      ringClosed pr.2 = false := by
    rw [hdd]
    decide
  have hmain := c6_open_ring_failure true [] ⟨9, 1, 0, 0, 0, true, "", [], []⟩
    [⟨5, [⟨1, ⟨true, 0, 0⟩⟩, ⟨2, ⟨true, 1, 0⟩⟩,
          ⟨3, ⟨true, 2, 0⟩⟩, ⟨4, ⟨true, 3, 0⟩⟩]⟩] h1 h2
  refine ⟨h1, h2, hmain.1, ?_⟩
  rw [hmain.2.2.2.2.1, hdd]
  decide

/-! ### Claim C7: orientation inheritance for a new ring -/

/-- Claim C7: when a segment starts a new ring, its orientation is inherited
as the negation of the `cw` flag of the first earlier segment — scanning
backwards through the already-processed (sorted-order) segments — whose
y-range spans the new segment's first y-coordinate and which either has both
endpoint x-coordinates at most the new segment's first x-coordinate or passes
the `is_below` test; that segment is recorded as the left neighbor; if no
earlier segment qualifies, the default orientation is clockwise. -/
theorem c7_orientation_inheritance (processed : List SegAnnot) (loc : Location) :
    computeCw processed loc =
      match processed.reverse.find? (fun o => ySpans o.seg loc
          && (bothXLe o.seg loc || is_below loc o.seg)) with
      | some o => (!o.cw, some o)
      | none => (true, none) := by
  rw [computeCw]
  generalize processed.reverse = bl
  induction bl with
  | nil => rfl
  | cons o earlier ih =>
    simp only [scanBack]
    rcases hy : ySpans o.seg loc with _ | _
    · rw [List.find?_cons_of_neg _ (by simp [hy])]
      exact ih
    · rcases hx : bothXLe o.seg loc with _ | _
      · rcases hb : is_below loc o.seg with _ | _
        · rw [List.find?_cons_of_neg _ (by simp [hy, hx, hb])]
          simp only [Bool.false_eq_true, if_false, if_true, hy, hx, hb]
          exact ih
        · rw [List.find?_cons_of_pos _ (by simp [hy, hx, hb])]
          simp [hy, hx, hb]
      · rw [List.find?_cons_of_pos _ (by simp [hy, hx])]
        simp [hy, hx]

/-! ### Claim C9: remember_problems does not influence the output records -/

/-- Claim C9: for any fixed relation, member set and incoming problem list,
the records `Assembler::operator()` writes into the output buffer — the
header-and-tags record, the ring blocks and the commit count — and the exit
taken are identical whether `remember_problems` is enabled or disabled; the
flag influences only the retained problem list. -/
theorem c9_remember_only_problems (acc : List Problem) (rel : Relation)
    (ways : List Way) :
    (assembleCore true acc rel ways).header = (assembleCore false acc rel ways).header ∧
    (assembleCore true acc rel ways).ringBlocks
      = (assembleCore false acc rel ways).ringBlocks ∧
    (assembleCore true acc rel ways).commits
      = (assembleCore false acc rel ways).commits ∧
    (assembleCore true acc rel ways).outcome
      = (assembleCore false acc rel ways).outcome := by
  have hfi : (findIntersections true acc (dedupedSegments ways)).1
      = (findIntersections false acc (dedupedSegments ways)).1 :=
    findIntersections_fst_const true false acc acc _
  have hcoT := checkOpenRings_eq true
      (findIntersections true acc (dedupedSegments ways)).2
      (buildRings (dedupedSegments ways)).rings
  have hcoF := checkOpenRings_eq false
      (findIntersections false acc (dedupedSegments ways)).2
      (buildRings (dedupedSegments ways)).rings
  simp only [assembleCore, hfi]
  rcases hb : (findIntersections false acc (dedupedSegments ways)).1 with _ | _
  · simp only [Bool.false_eq_true, if_false]
    rw [congrArg Prod.fst hcoT, congrArg Prod.fst hcoF]
    rcases ho : (buildRings (dedupedSegments ways)).rings.any
        (fun p => !(ringClosed p.2)) with _ | _
    · simp only [Bool.false_eq_true, if_false]
      cases hcl : classifyRings (buildRings (dedupedSegments ways)).rings with
      | none => exact ⟨rfl, rfl, rfl, rfl⟩
      | some oi => exact ⟨rfl, rfl, rfl, rfl⟩
    · simp
  · simp

/-! ### Claim C10: the problem list only accumulates -/

theorem assembleCore_problems_prefix (remember : Bool) (acc : List Problem)
    (rel : Relation) (ways : List Way) :
    ∃ l, (assembleCore remember acc rel ways).problems = acc ++ l := by
  obtain ⟨l1, h1⟩ := findIntersections_snd_prefix remember acc (dedupedSegments ways)
  have hco := checkOpenRings_eq remember
      (findIntersections remember acc (dedupedSegments ways)).2
      (buildRings (dedupedSegments ways)).rings
  have hco2 : (checkOpenRings remember
      (findIntersections remember acc (dedupedSegments ways)).2
      (buildRings (dedupedSegments ways)).rings).2
      = acc ++ (l1 ++ (if remember
          then openRingProblems (buildRings (dedupedSegments ways)).rings
          else [])) := by
    rw [congrArg Prod.snd hco, h1, List.append_assoc]
  simp only [assembleCore]
  split
  · exact ⟨l1, h1⟩
  · split
    · exact ⟨_, hco2⟩
    · split
      · exact ⟨_, hco2⟩
      · exact ⟨_, hco2⟩

/-- Claim C10: `Assembler::operator()` only appends to the problem list and
never removes or alters existing entries, so `problems()` accumulates across
successive invocations; `clear_problems()` empties the list. -/
theorem c10_problem_accumulation (a : Assembler) (rel : Relation)
    (ways : List Way) :
    (∃ l, Assembler.problems ((Assembler.call a rel ways).1)
        = Assembler.problems a ++ l) ∧
    Assembler.problems (Assembler.clear_problems a) = [] := by
  constructor
  · obtain ⟨l, hl⟩ := assembleCore_problems_prefix a.m_remember_problems
      a.m_problems rel ways
    exact ⟨l, hl⟩
  · rfl

/-! ### The relations manager, pass 1 (claim C8)

The relations and members databases live in `relations/relations_database.hpp`
and `relations/members_database.hpp`, which are not part of the analysed
sources; their `add`/`track` operations are modelled from spec §4.2 and §4.3.
`RelationsManager::relation` itself (relations_manager.hpp lines 400-414) is
embedded from the source; the CRTP hooks `new_relation`/`new_member` become
function parameters. The loop iterates the stored copy's member list; since a
member is read before its own ref may be zeroed and earlier zeroings only
touch earlier positions, passing the original member values is faithful. -/

/-- Modelled from the spec (§3): a member-tracking entry —
`{ member_id, relation_handle, position }`. -/
structure TrackEntry where
  memberRef : Int
  relHandle : Nat
  pos : Nat
deriving DecidableEq, Repr

/-- Modelled from the spec (§3, §4.2): a pending relation — the stored
relation copy plus its pending-member count (0 on `add`). -/
structure StoredRelation where
  rel : Relation
  pendingMembers : Nat
deriving DecidableEq, Repr

/-- The manager state pass 1 mutates: the relations database and one members
database per member kind; relation handles are indices into the relations
database. -/
structure ManagerState where
  relationsDb : List StoredRelation
  nodesDb : List TrackEntry
  waysDb : List TrackEntry
  relsDb : List TrackEntry
deriving DecidableEq, Repr

/-- In-place update of the element at one position of a list. -/
def modifyAt {α : Type} (f : α → α) : Nat → List α → List α
  | _, [] => []
  | 0, a :: t => f a :: t
  | n + 1, a :: t => a :: modifyAt f n t

/-- Modelled from the spec (§4.2, §4.3): `member_database(kind).track(...)` —
append a tracking entry to the members database of the member's kind and
increment the relation's pending-member count. -/
def trackMember (k : MemberKind) (e : TrackEntry) (s : ManagerState) :
    ManagerState :=
  let bump := fun sr : StoredRelation =>
    { sr with pendingMembers := sr.pendingMembers + 1 }
  let s2 := { s with relationsDb := modifyAt bump e.relHandle s.relationsDb }
  match k with
  | .node => { s2 with nodesDb := s2.nodesDb ++ [e] }
  | .way => { s2 with waysDb := s2.waysDb ++ [e] }
  | .relation => { s2 with relsDb := s2.relsDb ++ [e] }

/-- `member.set_ref(0)` on the stored copy (relations_manager.hpp line
409). -/
def zeroMemberRef (idx n : Nat) (s : ManagerState) : ManagerState :=
  let zero := fun m : Member => { m with ref := 0 }
  let upd := fun sr : StoredRelation =>
    { sr with rel := { sr.rel with members := modifyAt zero n sr.rel.members } }
  { s with relationsDb := modifyAt upd idx s.relationsDb }

/-- The member loop of `RelationsManager::relation` (relations_manager.hpp
lines 404-412), with the running position `n`. -/
def memberLoop (newMem : Relation → Member → Nat → Bool) (origRel : Relation)
    (idx : Nat) : Nat → List Member → ManagerState → ManagerState
  | _, [], s => s
  | n, m :: rest, s =>
      if newMem origRel m n then
        memberLoop newMem origRel idx (n + 1) rest
          (trackMember m.type ⟨m.ref, idx, n⟩ s)
      else
        memberLoop newMem origRel idx (n + 1) rest (zeroMemberRef idx n s)

/-- `RelationsManager::relation` (relations_manager.hpp lines 400-414): when
`new_relation` accepts the relation, store it with pending count 0 and run the
member loop; otherwise do nothing. -/
def managerRelation (newRel : Relation → Bool)
    (newMem : Relation → Member → Nat → Bool)
    (s : ManagerState) (rel : Relation) : ManagerState :=
  if newRel rel then
    memberLoop newMem rel s.relationsDb.length 0 rel.members
      { s with relationsDb := s.relationsDb ++ [⟨rel, 0⟩] }
  else s

/-- The members of the stored relation copy after pass 1, at claim level:
member `n` keeps its ref when `new_member` accepts it and has ref 0
otherwise. -/
def storedMembersFrom (newMem : Relation → Member → Nat → Bool)
    (rel : Relation) : Nat → List Member → List Member
  | _, [] => []
  | n, m :: rest =>
      (if newMem rel m n then m else { m with ref := 0 })
        :: storedMembersFrom newMem rel (n + 1) rest

/-- The tracking entries added to the members database of one kind, at claim
level: one per accepted member of that kind, in member order. -/
def trackedFrom (newMem : Relation → Member → Nat → Bool) (rel : Relation)
    (idx : Nat) (k : MemberKind) : Nat → List Member → List TrackEntry
  | _, [] => []
  | n, m :: rest =>
      (if newMem rel m n && (m.type == k) then [⟨m.ref, idx, n⟩] else [])
        ++ trackedFrom newMem rel idx k (n + 1) rest

/-- The number of accepted members, at claim level (the pending count the
track calls accumulate). -/
def acceptedFrom (newMem : Relation → Member → Nat → Bool) (rel : Relation) :
    Nat → List Member → Nat
  | _, [] => 0
  | n, m :: rest =>
      (if newMem rel m n then 1 else 0) + acceptedFrom newMem rel (n + 1) rest

theorem modifyAt_append_last {α : Type} (f : α → α) (pre : List α) (x : α) :
    modifyAt f pre.length (pre ++ [x]) = pre ++ [f x] := by
  induction pre with
  | nil => rfl
  | cons a t ih => simp [modifyAt, ih]

theorem modifyAt_append_at {α : Type} (f : α → α) (pref : List α) (m : α)
    (rest : List α) :
    modifyAt f pref.length (pref ++ m :: rest) = pref ++ f m :: rest := by
  induction pref with
  | nil => rfl
  | cons a t ih => simp [modifyAt, ih]

theorem memberLoop_spec (newMem : Relation → Member → Nat → Bool)
    (origRel : Relation) (pre : List StoredRelation) (cur : Relation) :
    ∀ (ms : List Member) (n : Nat) (pref : List Member) (pend : Nat)
      (nd wd rd : List TrackEntry), pref.length = n →
      memberLoop newMem origRel pre.length n ms
        ⟨pre ++ [⟨{ cur with members := pref ++ ms }, pend⟩], nd, wd, rd⟩
      = ⟨pre ++ [⟨{ cur with
            members := pref ++ storedMembersFrom newMem origRel n ms },
            pend + acceptedFrom newMem origRel n ms⟩],
         nd ++ trackedFrom newMem origRel pre.length .node n ms,
         wd ++ trackedFrom newMem origRel pre.length .way n ms,
         rd ++ trackedFrom newMem origRel pre.length .relation n ms⟩ := by
  intro ms
  induction ms with
  | nil =>
    intro n pref pend nd wd rd hn
    simp [memberLoop, storedMembersFrom, trackedFrom, acceptedFrom]
  | cons m rest ih =>
    intro n pref pend nd wd rd hn
    simp only [memberLoop]
    rcases hnm : newMem origRel m n with _ | _
    · simp only [Bool.false_eq_true, if_false]
      have hz : zeroMemberRef pre.length n
          ⟨pre ++ [⟨{ cur with members := pref ++ m :: rest }, pend⟩], nd, wd, rd⟩
          = ⟨pre ++ [⟨{ cur with
              members := pref ++ ({ m with ref := 0 } :: rest) }, pend⟩],
             nd, wd, rd⟩ := by
        simp only [zeroMemberRef, modifyAt_append_last]
        rw [← hn, modifyAt_append_at]
      rw [hz]
      have := ih (n + 1) (pref ++ [{ m with ref := 0 }]) pend nd wd rd
        (by simp [hn])
      rw [List.append_assoc] at this
      simp only [List.cons_append, List.nil_append] at this
      rw [this]
      simp [storedMembersFrom, trackedFrom, acceptedFrom, hnm]
    · simp only [if_true]
      have ht : trackMember m.type ⟨m.ref, pre.length, n⟩
          ⟨pre ++ [⟨{ cur with members := pref ++ m :: rest }, pend⟩], nd, wd, rd⟩
          = (match m.type with
             | .node => ⟨pre ++ [⟨{ cur with members := pref ++ m :: rest },
                  pend + 1⟩], nd ++ [⟨m.ref, pre.length, n⟩], wd, rd⟩
             | .way => ⟨pre ++ [⟨{ cur with members := pref ++ m :: rest },
                  pend + 1⟩], nd, wd ++ [⟨m.ref, pre.length, n⟩], rd⟩
             | .relation => ⟨pre ++ [⟨{ cur with members := pref ++ m :: rest },
                  pend + 1⟩], nd, wd, rd ++ [⟨m.ref, pre.length, n⟩]⟩) := by
        cases m.type <;>
          simp [trackMember, modifyAt_append_last]
      rw [ht]
      cases htype : m.type
      case node =>
        have hrec := ih (n + 1) (pref ++ [m]) (pend + 1)
          (nd ++ [TrackEntry.mk m.ref pre.length n]) wd rd (by simp [hn])
        simp only [List.append_assoc, List.singleton_append] at hrec
        rw [hrec]
        simp [storedMembersFrom, trackedFrom, acceptedFrom, hnm, htype]
        omega
      case way =>
        have hrec := ih (n + 1) (pref ++ [m]) (pend + 1)
          nd (wd ++ [TrackEntry.mk m.ref pre.length n]) rd (by simp [hn])
        simp only [List.append_assoc, List.singleton_append] at hrec
        rw [hrec]
        simp [storedMembersFrom, trackedFrom, acceptedFrom, hnm, htype]
        omega
      case relation =>
        have hrec := ih (n + 1) (pref ++ [m]) (pend + 1)
          nd wd (rd ++ [TrackEntry.mk m.ref pre.length n]) (by simp [hn])
        simp only [List.append_assoc, List.singleton_append] at hrec
        rw [hrec]
        simp [storedMembersFrom, trackedFrom, acceptedFrom, hnm, htype]
        omega

/-- Claim C8: in pass 1, `RelationsManager::relation` stores the incoming
relation exactly when `new_relation` returns true; in that case, for each
member at position n, it tracks the member in the members database of the
member's kind (incrementing the pending count) when `new_member` returns true
and otherwise rewrites the member's ref to 0 in the stored copy; when
`new_relation` returns false, no state is mutated. -/
theorem c8_pass1_relation (newRel : Relation → Bool)
    (newMem : Relation → Member → Nat → Bool) (s : ManagerState)
    (rel : Relation) :
    managerRelation newRel newMem s rel =
      if newRel rel then
        ⟨s.relationsDb ++
            [⟨{ rel with members := storedMembersFrom newMem rel 0 rel.members },
              acceptedFrom newMem rel 0 rel.members⟩],
         s.nodesDb ++ trackedFrom newMem rel s.relationsDb.length .node 0 rel.members,
         s.waysDb ++ trackedFrom newMem rel s.relationsDb.length .way 0 rel.members,
         s.relsDb ++ trackedFrom newMem rel s.relationsDb.length .relation 0 rel.members⟩
      else s := by
  unfold managerRelation
  split
  · have hspec := memberLoop_spec newMem rel s.relationsDb rel rel.members 0 []
      0 s.nodesDb s.waysDb s.relsDb rfl
    simp only [List.nil_append, Nat.zero_add] at hspec
    have heta : { rel with members := rel.members } = rel := rfl
    rw [heta] at hspec
    exact hspec
  · rfl

end Osmium
